import Mathlib

/-!
Verification of the stream2sentence incremental sentence splitter
(`stream2sentence/stream2sentence.py`).

Text is modelled as `List Char`.  Python strings arrive as lists of
characters; the splitter state, the sanitization passes and the
tokenizer interface are transcribed from the source.  The sentence
tokenizers themselves (nltk, stanza) and the emoji classification table
are external libraries, so they enter the model as parameters.
-/

namespace Stream2Sentence

/-- The whitespace set of Python `str.isspace` / `str.strip`, restricted to
the characters that can actually appear here (ASCII whitespace plus the
common one-codepoint Unicode whitespace characters Python recognises).  -/
def pyIsSpace (c : Char) : Bool :=
  c = ' ' || c = '\t' || c = '\n' || c = '\x0b' || c = '\x0c' || c = '\r' ||
  c = '\x1c' || c = '\x1d' || c = '\x1e' || c = '\x1f' ||
  c = '\x85' || c = ' '
/-- Python `str.isalnum`, on the ASCII range (the model does not cover
non-ASCII alphanumerics). -/
def pyIsAlnum (c : Char) : Bool := c.isAlphanum
/-- Python `str.lstrip()` with no argument: drop leading whitespace. -/
def pyLStrip (l : List Char) : List Char := l.dropWhile pyIsSpace
/-- Python `str.rstrip()` with no argument: drop trailing whitespace. -/
def pyRStrip (l : List Char) : List Char := ((l.reverse).dropWhile pyIsSpace).reverse
/-- Python `str.strip()` with no argument. -/
def pyStrip (l : List Char) : List Char := pyRStrip (pyLStrip l)
/-- All non-whitespace characters of a string, in order.  Comparing two
strings through `noWS` is the "ignoring whitespace normalization" view
used by the no-loss property. -/
def noWS (l : List Char) : List Char := l.filter (fun c => !pyIsSpace c)

/-! ### `_remove_links` (lines 73-88)

The Python code substitutes the regular expression

  `http[s]?://(?:[a-zA-Z]|[0-9]|[$-_@.&+]|[!*\(\),]|(?:%[0-9a-fA-F][0-9a-fA-F]))+`

by the empty string.  The character alternatives amount to the character
set {'!'} ∪ ['$'..'_'] ∪ ['a'..'z'] (the ranges `0-9`, `A-Z`, `@.&+`,
`*(),` and `%` with its hex digits all lie inside `['$'..'_']`), and the
`%hh` alternative adds no further characters to the set, so a maximal
greedy match is `http://` or `https://` followed by the maximal nonempty
run of set characters.  `re.sub` removes the leftmost match and resumes
scanning after it. -/
/-- A character matched by the body (after `://`) of the link pattern. -/
def isLinkChar (c : Char) : Bool :=
  c = '!' || ('$' ≤ c && c ≤ '_') || ('a' ≤ c && c ≤ 'z')
/-- `http://` as a character list. -/
def httpPref : List Char := ['h', 't', 't', 'p', ':', '/', '/']
/-- `https://` as a character list. -/
def httpsPref : List Char := ['h', 't', 't', 'p', 's', ':', '/', '/']
/-- Length of the maximal leading run of link-body characters. -/
def linkRun : List Char → Nat
  | [] => 0
  | c :: rest => if isLinkChar c then linkRun rest + 1 else 0
/-- If the link regex matches at the head of `cs`, the length of the
(greedy, maximal) match; otherwise `none`. -/
def linkAt (cs : List Char) : Option Nat :=
  if cs.take 8 = httpsPref then
    if 0 < linkRun (cs.drop 8) then some (8 + linkRun (cs.drop 8)) else none
  else if cs.take 7 = httpPref then
    if 0 < linkRun (cs.drop 7) then some (7 + linkRun (cs.drop 7)) else none
  else none
/-- Whether the link regex matches at the head of `cs`. -/
def headMatch (cs : List Char) : Bool := (linkAt cs).isSome
/-- Left-to-right scan of `re.sub(pattern, "", text)`: remove the leftmost
match, resume after it, keep non-matching characters.  The fuel argument
makes the recursion structural; `fuel ≥ cs.length` suffices because every
step consumes at least one character. -/
def removeLinksFuel : Nat → List Char → List Char
  | 0, l => l
  | _ + 1, [] => []
  | fuel + 1, c :: rest =>
    match linkAt (c :: rest) with
    | some n => removeLinksFuel fuel (List.drop n (c :: rest))
    | none => c :: removeLinksFuel fuel rest
/-- `_remove_links` (lines 73-88). -/
def removeLinks (l : List Char) : List Char := removeLinksFuel l.length l
/-- `_remove_emojis` (lines 91-101).  Modelled from the spec: the external
`emoji` library strips the characters recognised as emoji by a standard
classification table; the table enters as the predicate `isEmoji`. -/
def removeEmojis (isEmoji : Char → Bool) (l : List Char) : List Char :=
  l.filter (fun c => !isEmoji c)
/-- `_clean_text` (lines 123-148): optionally remove links, then
optionally remove emojis, then optionally strip. -/
def cleanText (links emojis strip : Bool) (isEmoji : Char → Bool)
    (t : List Char) : List Char :=
  let t1 := if links then removeLinks t else t
  let t2 := if emojis then removeEmojis isEmoji t1 else t1
  if strip then pyStrip t2 else t2
/-- A concrete emoji classification for counterexamples.  Modelled from
the spec: a standard classification table; the codepoints U+1F300-U+1FAFF
(which include U+1F600 GRINNING FACE) are emoji, ASCII characters are
not, which is faithful to the real table on every character used here. -/
def tableEmoji (c : Char) : Bool := 0x1F300 ≤ c.val && c.val ≤ 0x1FAFF

/-! ### The splitter (class `SentenceSplitter`, lines 360-662)

`__init__` stores the construction parameters on the instance after
adjusting the cascading quick-yield flags.  The sentence tokenizer
reaches `stream`/`flush` through `_tokenize_sentences`; inside the core
it is a function `List Char → List (List Char)` (the custom
`tokenize_sentences` callable, or a built-in resolved by name — the
resolution layer is modelled further below). -/
/-- The per-instance configuration attributes of `SentenceSplitter`
(lines 466-483), as stored after the quick-yield flag cascade. -/
structure SplitterConfig where
  contextSize : Nat
  contextSizeLookOverhead : Nat
  minimumSentenceLength : Nat
  minimumFirstFragmentLength : Nat
  quickYieldSingleSentenceFragment : Bool
  quickYieldForAllSentences : Bool
  quickYieldEveryFragment : Bool
  cleanupTextLinks : Bool
  cleanupTextEmojis : Bool
  tokenizerName : String
  sentenceFragmentDelimiters : List Char
  fullSentenceDelimiters : List Char
  forceFirstFragmentAfterWords : Nat
  filterFirstNonAlnumCharacters : Bool
  /-- Modelled from the spec: the emoji classification table of the
  external `emoji` library, forwarded to `_clean_text` at yield time. -/
  isEmoji : Char → Bool
/-- Default `sentence_fragment_delimiters` (line 376). -/
def defaultFragmentDelimiters : List Char :=
  ['.', '?', '!', ';', ':', ',', '\n', '…', ')', ']', '}', '。', '-']
/-- Default `full_sentence_delimiters` (line 377). -/
def defaultFullDelimiters : List Char := ['.', '?', '!', '\n', '…', '。']
/-- The quick-yield flag cascade of `__init__` (lines 459-464):
`quick_yield_every_fragment` implies `quick_yield_for_all_sentences`
implies `quick_yield_single_sentence_fragment`. -/
def applyQuickYieldCascade (cfg : SplitterConfig) : SplitterConfig :=
  let allS := cfg.quickYieldForAllSentences || cfg.quickYieldEveryFragment
  { cfg with
    quickYieldForAllSentences := allS
    quickYieldSingleSentenceFragment :=
      cfg.quickYieldSingleSentenceFragment || allS }
/-- The mutable state of one `SentenceSplitter` instance: the stored
configuration plus `input_buffer`, `buffer`, `is_first_sentence`,
`word_count` and `last_delimiter_position` (lines 453-457). -/
structure SplitterState where
  cfg : SplitterConfig
  inputBuffer : List (List Char)
  buffer : List Char
  isFirstSentence : Bool
  wordCount : Nat
  lastDelimiterPosition : Int
/-- The state built by `__init__` (lines 453-483). -/
def initState (cfg : SplitterConfig) : SplitterState :=
  { cfg := applyQuickYieldCascade cfg
    inputBuffer := []
    buffer := []
    isFirstSentence := true
    wordCount := 0
    lastDelimiterPosition := -1 }
/-- Which code path emitted a sentence (an observer added by the model;
erasing the kind gives exactly the emitted text stream). -/
inductive EmissionKind where
  | quickYield -- the first-fragment quick-yield path (lines 507-536)
  | commit -- the context-window commit path (lines 587-608)
  | flushMid -- a `flush` yield inside the accumulation loop (line 650)
  | flushFinal -- the final undersized remainder of `flush` (line 662)
deriving DecidableEq, Repr
/-- One emitted sentence together with the path that emitted it. -/
structure Emission where
  kind : EmissionKind
  text : List Char
deriving DecidableEq, Repr
/-- The `_clean_text` call made at every yield site of the splitter
(links/emojis from the configuration, `strip_text` left at its default
`True`). -/
def cleanSplitter (cfg : SplitterConfig) (t : List Char) : List Char :=
  cleanText cfg.cleanupTextLinks cfg.cleanupTextEmojis true cfg.isEmoji t
/-- The short-sentence merge pass of `stream` (lines 565-582): sentences
shorter than `minimum_sentence_length` accumulate (with a trailing
space) into `temp`, which is flushed onto the next long sentence, or
appended on its own if nothing follows. -/
def mergeSentences (minLen : Nat) : List (List Char) → List Char → List (List Char)
  | [], temp => if temp = [] then [] else [pyStrip temp]
  | s :: rest, temp =>
    if s.length < minLen then
      mergeSentences minLen rest (temp ++ s ++ [' '])
    else if temp = [] then
      pyStrip s :: mergeSentences minLen rest []
    else
      pyStrip (temp ++ s) :: mergeSentences minLen rest []
/-- The buffer after one character is appended: `(buffer + char).lstrip()`
(line 498). -/
def bufAfter (st : SplitterState) (c : Char) : List Char :=
  pyLStrip (st.buffer ++ [c])
/-- The word count after one character (lines 501-502): incremented on
whitespace and on sentence-fragment delimiters. -/
def wcAfter (st : SplitterState) (c : Char) : Nat :=
  if pyIsSpace c = true ∨ c ∈ st.cfg.sentenceFragmentDelimiters then
    st.wordCount + 1
  else st.wordCount
/-- The last-delimiter position as recorded by the analysis branch
(lines 544-545): the offset of `char` in the new buffer when `char` is a
full-sentence delimiter, else the previously recorded value. -/
def ldpAfter (st : SplitterState) (c : Char) : Int :=
  if c ∈ st.cfg.fullSentenceDelimiters then ((bufAfter st c).length : Int) - 1
  else st.lastDelimiterPosition
/-- `context_window_end_pos` (line 548). -/
def cwEndAfter (st : SplitterState) (c : Char) : Int :=
  ((bufAfter st c).length : Int) - st.cfg.contextSize - 1
/-- `context_window_start_pos` (lines 549-553). -/
def cwStartAfter (st : SplitterState) (c : Char) : Int :=
  max 0 (cwEndAfter st c - st.cfg.contextSizeLookOverhead)
/-- The merged sentence list the commit decision looks at (lines
556-585). -/
def mergedAfter (tok : List Char → List (List Char)) (st : SplitterState)
    (c : Char) : List (List Char) :=
  mergeSentences st.cfg.minimumSentenceLength (tok (bufAfter st c)) []
/-- `self.buffer[-1] in self.sentence_fragment_delimiters` (line 515). -/
def lastIsFragDelim (cfg : SplitterConfig) (b : List Char) : Bool :=
  match b.getLast? with
  | some d => d ∈ cfg.sentenceFragmentDelimiters
  | none => false
/-- The result of processing one character (or one `stream`/chunk/run):
the successor state, the sentences emitted, and how many times the
tokenizer was invoked on the buffer (an observer for the "no commit
analysis" and "error before first use" properties). -/
structure StepResult where
  state : SplitterState
  emissions : List Emission
  analyzed : Nat
/-- The per-character body of `stream` (lines 491-628).  A character is
never falsy (`if char:` always holds for a one-character string), so the
branches are: the leading non-alphanumeric filter, the quick-yield
check, the minimum-length accumulation check, and the context-window
commit analysis. -/
def processChar (tok : List Char → List (List Char)) (st : SplitterState)
    (c : Char) : StepResult :=
  if st.buffer.length = 0 ∧ st.cfg.filterFirstNonAlnumCharacters = true ∧
      pyIsAlnum c = false then
    { state := st, emissions := [], analyzed := 0 }
  else
    let buf1 := bufAfter st c
    let wc1 := wcAfter st c
    if st.isFirstSentence = true ∧
        st.cfg.minimumFirstFragmentLength < buf1.length ∧
        st.cfg.quickYieldSingleSentenceFragment = true ∧
        (lastIsFragDelim st.cfg buf1 = true ∨
          (pyIsSpace c = true ∧ st.cfg.forceFirstFragmentAfterWords ≤ wc1)) then
      { state := { st with
          buffer := []
          wordCount := 0
          isFirstSentence :=
            if st.cfg.quickYieldEveryFragment then st.isFirstSentence else false }
        emissions := [⟨.quickYield, cleanSplitter st.cfg buf1⟩]
        analyzed := 0 }
    else if buf1.length ≤ st.cfg.minimumSentenceLength + st.cfg.contextSize then
      { state := { st with buffer := buf1, wordCount := wc1 }
        emissions := [], analyzed := 0 }
    else
      let ldp1 := ldpAfter st c
      let combined := mergedAfter tok st c
      if 2 < combined.length ∨
          (0 ≤ ldp1 ∧ cwStartAfter st c ≤ ldp1 ∧ ldp1 ≤ cwEndAfter st c) then
        if 1 < combined.length then
          if st.cfg.minimumSentenceLength ≤
              (combined.dropLast.map List.length).sum then
            { state := { st with
                buffer := combined.getLastD [] ++
                  (if buf1.getLast? = some ' ' then [' '] else [])
                wordCount := 0
                isFirstSentence :=
                  if st.cfg.quickYieldForAllSentences then true
                  else st.isFirstSentence
                lastDelimiterPosition := -1 }
              emissions :=
                combined.dropLast.map (fun s => ⟨.commit, cleanSplitter st.cfg s⟩)
              analyzed := 1 }
          else
            { state := { st with
                buffer := buf1
                wordCount := wc1
                lastDelimiterPosition := ldp1 }
              emissions := [], analyzed := 1 }
        else
          { state := { st with
              buffer := buf1
              wordCount := wc1
              lastDelimiterPosition := ldp1 }
            emissions := [], analyzed := 1 }
      else
        { state := { st with
            buffer := buf1
            wordCount := wc1
            lastDelimiterPosition := ldp1 }
          emissions := [], analyzed := 1 }
/-- Process the characters of one dequeued chunk, in order
(`_generate_characters_from_chunk`, lines 104-120, then the character
loop of `stream`). -/
def processChunk (tok : List Char → List (List Char)) :
    SplitterState → List Char → StepResult
  | st, [] => { state := st, emissions := [], analyzed := 0 }
  | st, c :: cs =>
    let s := processChar tok st c
    let r := processChunk tok s.state cs
    { state := r.state
      emissions := s.emissions ++ r.emissions
      analyzed := s.analyzed + r.analyzed }
/-- `add` (lines 485-486): append the chunk to the input queue. -/
def addChunk (st : SplitterState) (chunk : List Char) : SplitterState :=
  { st with inputBuffer := st.inputBuffer ++ [chunk] }
/-- Process a sequence of dequeued chunks in order. -/
def streamChunks (tok : List Char → List (List Char)) :
    SplitterState → List (List Char) → StepResult
  | st, [] => { state := st, emissions := [], analyzed := 0 }
  | st, chunk :: rest =>
    let s := processChunk tok st chunk
    let r := streamChunks tok s.state rest
    { state := r.state
      emissions := s.emissions ++ r.emissions
      analyzed := s.analyzed + r.analyzed }
/-- `stream` (lines 488-628), fully drained: pop every queued chunk in
FIFO order and process its characters.  (No processing step enqueues, so
the while-pop loop walks the queue once and leaves it empty.) -/
def streamRun (tok : List Char → List (List Char)) (st : SplitterState) :
    StepResult :=
  streamChunks tok { st with inputBuffer := [] } st.inputBuffer
/-- The accumulation loop of `flush` (lines 636-662): concatenate
sentences into `sentence_buffer` (with a separating space while it is
short), yield it once it reaches the minimum length, and yield any final
undersized remainder as-is. -/
def flushLoop (cfg : SplitterConfig) : List (List Char) → List Char → List Emission
  | [], sb => if sb = [] then [] else [⟨.flushFinal, cleanSplitter cfg sb⟩]
  | s :: rest, sb =>
    let sb2 := sb ++ s
    if sb2.length < cfg.minimumSentenceLength then
      flushLoop cfg rest (sb2 ++ [' '])
    else
      ⟨.flushMid, cleanSplitter cfg sb2⟩ :: flushLoop cfg rest []
/-- `flush` (lines 630-662): tokenize whatever remains in the buffer and
drain it through the accumulation loop.  `flush` assigns no instance
attribute, so it is a function of the state only. -/
def flushEmissions (tok : List Char → List (List Char)) (st : SplitterState) :
    List Emission :=
  if st.buffer = [] then [] else flushLoop st.cfg (tok st.buffer) []
/-- `flush` as an operation on the splitter: the (unchanged) state
paired with the emitted sentences. -/
def flushOp (tok : List Char → List (List Char)) (st : SplitterState) :
    SplitterState × List Emission :=
  (st, flushEmissions tok st)
/-- One `add` followed by a drained `stream` per incoming fragment. -/
def runFrags (tok : List Char → List (List Char)) :
    SplitterState → List (List Char) → StepResult
  | st, [] => { state := st, emissions := [], analyzed := 0 }
  | st, frag :: rest =>
    let s := streamRun tok (addChunk st frag)
    let r := runFrags tok s.state rest
    { state := r.state
      emissions := s.emissions ++ r.emissions
      analyzed := s.analyzed + r.analyzed }
/-- The full pipeline of `generate_sentences_async` (lines 285-318):
one `add` followed by a drained `stream` per incoming fragment (the
final `flush` is appended by `runSplitter`). -/
def runSplitterResult (tok : List Char → List (List Char))
    (cfg : SplitterConfig) (frags : List (List Char)) : StepResult :=
  runFrags tok (initState cfg) frags
/-- All sentences emitted for a fragment sequence, streaming emissions
followed by the flush emissions. -/
def runSplitter (tok : List Char → List (List Char)) (cfg : SplitterConfig)
    (frags : List (List Char)) : List Emission :=
  let r := runSplitterResult tok cfg frags
  r.emissions ++ flushEmissions tok r.state
/-- The emitted text stream: the emissions with their kind tags erased
and concatenated. -/
def emsText (l : List Emission) : List Char := (l.map Emission.text).flatten

/-! ### Basic facts about the Python string primitives -/
/-- No position of `l` matches the link pattern. -/
def NoMatch (l : List Char) : Prop := ∀ i, headMatch (l.drop i) = false
/-- A string whose head (if any) is not a link-body character. -/
def HeadSafe (l : List Char) : Prop :=
  ∀ c, l.head? = some c → isLinkChar c = false
/-- How the head of the scan output relates to the head of the input:
either the first eight characters are untouched, or the output is a kept
prefix of fewer than eight characters followed by a string with a
non-link-body head (the character right after a removed maximal match).
This is the seam invariant behind idempotence. -/
def HeadInv (l r : List Char) : Prop :=
  r.take 8 = l.take 8 ∨
  ∃ k rr, k ≤ 7 ∧ k ≤ l.length ∧ r = l.take k ++ rr ∧ HeadSafe rr
/-- A concrete deterministic sentence tokenizer used in closed
statements: split after every `.`, `?` or `!`, stripping each sentence
(a stand-in for the external tokenizers, which are not part of this
repository). -/
def splitTok (t : List Char) : List (List Char) :=
  let r := t.foldl
    (fun (p : List (List Char) × List Char) c =>
      let cur := p.2 ++ [c]
      if c = '.' ∨ c = '?' ∨ c = '!' then (p.1 ++ [pyStrip cur], [])
      else (p.1, cur))
    ([], [])
  if pyStrip r.2 = [] then r.1 else r.1 ++ [pyStrip r.2]
/-- A tokenizer returning the whole stripped buffer as one sentence. -/
def wholeTok (t : List Char) : List (List Char) :=
  if pyStrip t = [] then [] else [pyStrip t]
/-- The default construction arguments of `SentenceSplitter.__init__`
(lines 361-380). -/
def cfgDefault : SplitterConfig :=
  { contextSize := 12
    contextSizeLookOverhead := 12
    minimumSentenceLength := 10
    minimumFirstFragmentLength := 10
    quickYieldSingleSentenceFragment := false
    quickYieldForAllSentences := false
    quickYieldEveryFragment := false
    cleanupTextLinks := false
    cleanupTextEmojis := false
    tokenizerName := "nltk"
    sentenceFragmentDelimiters := defaultFragmentDelimiters
    fullSentenceDelimiters := defaultFullDelimiters
    forceFirstFragmentAfterWords := 30
    filterFirstNonAlnumCharacters := false
    isEmoji := tableEmoji }

/-! ### Structural facts about one processing step -/
/-- Configuration with a small context window, used to exercise the
commit path in closed statements. -/
def cfgSmallCtx : SplitterConfig :=
  { cfgDefault with contextSize := 2, contextSizeLookOverhead := 20 }
/-- A mid-stream state about to commit its first sentence. -/
def stAboutToCommit : SplitterState :=
  { cfg := cfgSmallCtx
    inputBuffer := []
    buffer := "First sentence okay. This is more tex".data
    isFirstSentence := false
    wordCount := 7
    lastDelimiterPosition := 19 }
/-- A nonempty carry whose head character is not whitespace. -/
def CarryOK (temp : List Char) : Prop :=
  temp = [] ∨ ∃ c, temp.head? = some c ∧ pyIsSpace c = false
/-- Modelled from the spec: the external built-in sentence tokenizers
(the rule-based nltk one and the statistical stanza pipeline), as opaque
deterministic functions. -/
structure TokEnv where
  nltkTok : List Char → List (List Char)
  stanzaTok : List Char → List (List Char)
/-- What `init_tokenizer` (lines 184-193) does for each name: the two
known names run their (idempotent) initializers, an unknown name is
reported through `logging.warning` and nothing is substituted for
it. -/
inductive InitReport where
  | initializedNltk
  | initializedStanza
  | unknownTokenizerWarning (name : String)
deriving DecidableEq, Repr
def initTokenizerReport (name : String) : InitReport :=
  if name = "nltk" then .initializedNltk
  else if name = "stanza" then .initializedStanza
  else .unknownTokenizerWarning name
/-- The process-wide global `current_tokenizer` (line 24). -/
structure GlobalState where
  currentTokenizer : String
deriving DecidableEq, Repr
/-- `SentenceSplitter.__init__` (lines 449-451): overwrite the global
`current_tokenizer` with this instance's tokenizer name and run
`init_tokenizer`; its report is produced at construction time, before
any fragment is processed. -/
def constructSplitter (cfg : SplitterConfig) (_g : GlobalState) :
    SplitterState × GlobalState × InitReport :=
  (initState cfg, ⟨cfg.tokenizerName⟩, initTokenizerReport cfg.tokenizerName)
/-- The built-in tokenizer selected by a name, if the name is known. -/
def resolveBuiltin (env : TokEnv) (name : String) :
    Option (List Char → List (List Char)) :=
  if name = "nltk" then some env.nltkTok
  else if name = "stanza" then some env.stanzaTok
  else none
/-- `_tokenize_sentences` (lines 151-181): a custom tokenize callable
takes priority; otherwise dispatch on the global `current_tokenizer`,
raising `ValueError` for an unknown name. -/
def dispatchTokenize (env : TokEnv)
    (custom : Option (List Char → List (List Char))) (g : GlobalState) :
    Except String (List Char → List (List Char)) :=
  match custom with
  | some f => Except.ok f
  | none =>
    match resolveBuiltin env g.currentTokenizer with
    | some f => Except.ok f
    | none => Except.error ("Unknown tokenizer: " ++ g.currentTokenizer)
/-- Drive an already constructed splitter under the current global
tokenizer state (the global is read at tokenization time; no operation
of the run writes it). -/
def runConstructed (env : TokEnv)
    (custom : Option (List Char → List (List Char))) (g : GlobalState)
    (cfg : SplitterConfig) (frags : List (List Char)) :
    Option (List Emission) :=
  match dispatchTokenize env custom g with
  | Except.ok tok => some (runSplitter tok cfg frags)
  | Except.error _ => none
/-- Construct a splitter (updating the global) and run it to completion:
the emitted sentences (`none` if tokenization dispatch fails) and the
global state left behind. -/
def runWithGlobal (env : TokEnv)
    (custom : Option (List Char → List (List Char)))
    (cfg : SplitterConfig) (g0 : GlobalState) (frags : List (List Char)) :
    Option (List Emission) × GlobalState :=
  (runConstructed env custom (constructSplitter cfg g0).2.1 cfg frags,
    (constructSplitter cfg g0).2.1)

/-! ### Claim C4: unknown tokenizer names -/
/-- An environment in which the two built-in tokenizers behave
differently (the external libraries do). -/
def envTwoTok : TokEnv := { nltkTok := wholeTok, stanzaTok := splitTok }
/-- Modelled from the spec and the adapter code (lines 321-357): an
asynchronous fragment source is a list of fragments, each preceded by
the number of times the awaitable for it genuinely suspends.
`_await_sync` raises `RuntimeError` on the first suspension; until
then, the synchronous drive is the asynchronous engine stepped
eagerly. -/
def syncRunAux (tok : List Char → List (List Char)) :
    SplitterState → List Emission → List (Nat × List Char) →
      List Emission × Bool
  | st, acc, [] => (acc ++ flushEmissions tok st, false)
  | st, acc, (k, frag) :: rest =>
    if k ≠ 0 then (acc, true)
    else
      let s := streamRun tok (addChunk st frag)
      syncRunAux tok s.state (acc ++ s.emissions) rest
/-- `generate_sentences` = `_dowrap (generate_sentences_async)`: drive
the asynchronous engine synchronously, aborting with `RuntimeError`
(the Bool flag) if the source genuinely suspends. -/
def syncRun (tok : List Char → List (List Char)) (cfg : SplitterConfig)
    (source : List (Nat × List Char)) : List Emission × Bool :=
  syncRunAux tok (initState cfg) [] source
/-- `generate_sentences_async` on the same source: suspensions are
awaited, the fragments are processed. -/
def asyncRun (tok : List Char → List (List Char)) (cfg : SplitterConfig)
    (source : List (Nat × List Char)) : List Emission :=
  runSplitter tok cfg (source.map Prod.snd)
def wordsCountAux : Bool → List Char → Nat
  | _, [] => 0
  | true, c :: rest =>
    if pyIsSpace c = true then wordsCountAux false rest
    else wordsCountAux true rest
  | false, c :: rest =>
    if pyIsSpace c = true then wordsCountAux false rest
    else wordsCountAux true rest + 1
/-- The number of whitespace-delimited words of a string. -/
def wordsCount (l : List Char) : Nat := wordsCountAux false l
/-- The state invariant of a quick-yield-armed splitter that has not yet
emitted anything: the buffer is the left-stripped processed prefix, the
word count is its space count (still below the forcing threshold), the
first-sentence flag is armed, and no delimiter has been recorded. -/
def QYInv (cfg2 : SplitterConfig) (p : List Char) (st : SplitterState) : Prop :=
  st.cfg = cfg2 ∧ st.buffer = pyLStrip p ∧ st.wordCount = p.count ' ' ∧
  st.isFirstSentence = true ∧ st.lastDelimiterPosition = -1 ∧
  p.count ' ' < cfg2.forceFirstFragmentAfterWords
/-- The configuration of the C3 counterexample: quick-yield armed, a
forcing threshold of three words, library defaults otherwise. -/
def cfgC3ce : SplitterConfig :=
  { cfgDefault with
    quickYieldSingleSentenceFragment := true
    forceFirstFragmentAfterWords := 3 }
/-- The configuration of the C3 witness: as the counterexample but with
`minimum_first_fragment_length` lowered so the forcing boundary is
reachable at the threshold. -/
def cfgC3w : SplitterConfig :=
  { cfgDefault with
    quickYieldSingleSentenceFragment := true
    forceFirstFragmentAfterWords := 3
    minimumFirstFragmentLength := 2 }

/-! ### Theorems -/

theorem noWS_append (a b : List Char) : noWS (a ++ b) = noWS a ++ noWS b :=
  List.filter_append ..
theorem noWS_reverse (l : List Char) : noWS l.reverse = (noWS l).reverse :=
  List.filter_reverse ..
theorem noWS_lstrip (l : List Char) : noWS (pyLStrip l) = noWS l := by
  induction l with
  | nil => rfl
  | cons c rest ih =>
    by_cases h : pyIsSpace c
    · simp [pyLStrip, noWS, List.dropWhile_cons, h] at ih ⊢
      simpa [pyLStrip, noWS] using ih
    · simp [pyLStrip, List.dropWhile_cons, h]
theorem noWS_rstrip (l : List Char) : noWS (pyRStrip l) = noWS l := by
  have h1 := noWS_lstrip l.reverse
  have h2 : noWS (pyRStrip l) = (noWS (pyLStrip l.reverse)).reverse := by
    simp [pyRStrip, pyLStrip, noWS_reverse]
  rw [h2, h1, noWS_reverse, List.reverse_reverse]
theorem noWS_strip (l : List Char) : noWS (pyStrip l) = noWS l := by
  rw [pyStrip, noWS_rstrip, noWS_lstrip]
theorem noWS_space : noWS [' '] = [] := rfl
theorem noWS_cons_space (l : List Char) : noWS (' ' :: l) = noWS l := by
  rw [noWS, List.filter_cons]
  simp [pyIsSpace, noWS]
/-- The head of a left-stripped string is not whitespace. -/
theorem lstrip_head_not_space {l : List Char} {c : Char}
    (h : (pyLStrip l).head? = some c) : pyIsSpace c = false := by
  induction l with
  | nil => simp [pyLStrip] at h
  | cons d rest ih =>
    cases hd : pyIsSpace d with
    | true => exact ih (by simpa [pyLStrip, List.dropWhile_cons, hd] using h)
    | false =>
      simp [pyLStrip, List.dropWhile_cons, hd] at h
      rw [← h]
      exact hd
/-- A string whose head is not whitespace is a fixpoint of `lstrip`. -/
theorem lstrip_eq_self {l : List Char}
    (h : ∀ c, l.head? = some c → pyIsSpace c = false) : pyLStrip l = l := by
  cases l with
  | nil => rfl
  | cons c rest => simp [pyLStrip, List.dropWhile_cons, h c rfl]
theorem lstrip_idem (l : List Char) : pyLStrip (pyLStrip l) = pyLStrip l :=
  lstrip_eq_self fun _ h => lstrip_head_not_space h
/-- `rstrip` yields a prefix of its argument. -/
theorem rstrip_pref (l : List Char) : pyRStrip l <+: l := by
  have h : l.reverse.dropWhile pyIsSpace <:+ l.reverse := List.dropWhile_suffix _
  rw [pyRStrip]
  exact (@List.reverse_suffix Char
    (l.reverse.dropWhile pyIsSpace).reverse l).1 (by simpa using h)
/-- The last character of a right-stripped string is not whitespace. -/
theorem rstrip_getLast_not_space {l : List Char} {c : Char}
    (h : (pyRStrip l).getLast? = some c) : pyIsSpace c = false := by
  apply lstrip_head_not_space (l := l.reverse)
  rwa [pyRStrip, List.getLast?_reverse] at h
/-- A string whose last character is not whitespace is a fixpoint of
`rstrip`. -/
theorem rstrip_eq_self {l : List Char}
    (h : ∀ c, l.getLast? = some c → pyIsSpace c = false) : pyRStrip l = l := by
  have h2 : pyLStrip l.reverse = l.reverse := by
    apply lstrip_eq_self
    intro c hc
    exact h c (by rwa [List.head?_reverse] at hc)
  rw [pyRStrip]
  rw [show l.reverse.dropWhile pyIsSpace = pyLStrip l.reverse from rfl, h2,
    List.reverse_reverse]
theorem rstrip_idem (l : List Char) : pyRStrip (pyRStrip l) = pyRStrip l :=
  rstrip_eq_self fun _ h => rstrip_getLast_not_space h
/-- If nonempty, a prefix has the same head. -/
theorem head?_of_pref {l m : List Char} (h : l <+: m) {c : Char}
    (hc : l.head? = some c) : m.head? = some c := by
  obtain ⟨t, rfl⟩ := h
  cases l with
  | nil => simp at hc
  | cons a b => simpa using hc
theorem strip_idem (l : List Char) : pyStrip (pyStrip l) = pyStrip l := by
  rw [pyStrip, pyStrip]
  have h1 : pyLStrip (pyRStrip (pyLStrip l)) = pyRStrip (pyLStrip l) := by
    apply lstrip_eq_self
    intro c hc
    exact lstrip_head_not_space (head?_of_pref (rstrip_pref _) hc)
  rw [h1, rstrip_idem]
/-- A string with non-whitespace head and last character is a fixpoint of
`strip`. -/
theorem strip_eq_self {l : List Char}
    (hh : ∀ c, l.head? = some c → pyIsSpace c = false)
    (hl : ∀ c, l.getLast? = some c → pyIsSpace c = false) : pyStrip l = l := by
  rw [pyStrip, lstrip_eq_self hh, rstrip_eq_self hl]

/-! ### Facts about link removal

The central statement is that the output of `removeLinks` contains no
match of the link pattern at any position, hence `removeLinks` (and the
whole `_clean_text` pass built on it, as long as emoji removal cannot
splice a URL together) is idempotent. -/
theorem linkRun_le (cs : List Char) : linkRun cs ≤ cs.length := by
  induction cs with
  | nil => simp [linkRun]
  | cons c rest ih =>
    by_cases h : isLinkChar c
    · simp [linkRun, h]
      omega
    · simp [linkRun, h]
theorem linkRun_pos {cs : List Char} :
    0 < linkRun cs ↔ ∃ c, cs.head? = some c ∧ isLinkChar c = true := by
  cases cs with
  | nil => simp [linkRun]
  | cons c rest =>
    cases h : isLinkChar c <;> simp [linkRun, h]
/-- Maximality of the greedy run: the character right after it (if any)
is not a link-body character. -/
theorem linkRun_max {cs : List Char} {c : Char}
    (h : (cs.drop (linkRun cs)).head? = some c) : isLinkChar c = false := by
  induction cs with
  | nil => simp at h
  | cons d rest ih =>
    cases hd : isLinkChar d with
    | true => exact ih (by simpa [linkRun, hd] using h)
    | false =>
      simp [linkRun, hd] at h
      exact h ▸ hd
theorem take7_of_https {cs : List Char} (h : cs.take 8 = httpsPref) :
    cs.take 7 = ['h', 't', 't', 'p', 's', ':', '/'] := by
  have h77 : cs.take 7 = (cs.take 8).take 7 := by
    rw [List.take_take]
    norm_num
  rw [h77, h]
  rfl
theorem not_https_of_http {cs : List Char} (h : cs.take 7 = httpPref) :
    ¬cs.take 8 = httpsPref := by
  intro hc
  rw [take7_of_https hc] at h
  simp [httpPref] at h
/-- The two ways `linkAt` can succeed. -/
theorem linkAt_isSome_iff {cs : List Char} :
    (linkAt cs).isSome = true ↔
      (cs.take 8 = httpsPref ∧ 0 < linkRun (cs.drop 8)) ∨
      (cs.take 7 = httpPref ∧ 0 < linkRun (cs.drop 7)) := by
  rw [linkAt]
  split
  · rename_i h8
    constructor
    · intro h
      split at h
      · exact Or.inl ⟨h8, by assumption⟩
      · simp at h
    · intro h
      rcases h with ⟨_, hr⟩ | ⟨h7, _⟩
      · simp [hr]
      · exact absurd h8 (not_https_of_http h7)
  · rename_i h8
    split
    · rename_i h7
      constructor
      · intro h
        split at h
        · exact Or.inr ⟨h7, by assumption⟩
        · simp at h
      · intro h
        rcases h with ⟨h8x, _⟩ | ⟨_, hr⟩
        · exact absurd h8x h8
        · simp [hr]
    · rename_i h7
      simp
      exact ⟨fun hx => absurd hx h8, fun hx => absurd hx h7⟩
theorem linkAt_none_iff {cs : List Char} :
    linkAt cs = none ↔
      ¬((cs.take 8 = httpsPref ∧ 0 < linkRun (cs.drop 8)) ∨
        (cs.take 7 = httpPref ∧ 0 < linkRun (cs.drop 7))) := by
  rw [← linkAt_isSome_iff]
  cases h : linkAt cs <;> simp [h]
theorem linkAt_some_bounds {cs : List Char} {n : Nat}
    (h : linkAt cs = some n) : 8 ≤ n ∧ n ≤ cs.length := by
  rw [linkAt] at h
  split at h
  · rename_i h8
    have hlen : 8 ≤ cs.length := by
      have := congrArg List.length h8
      simp [httpsPref] at this
      omega
    split at h
    · have hle := linkRun_le (cs.drop 8)
      simp at hle
      simp at h
      omega
    · simp at h
  · split at h
    · rename_i h7
      have hlen : 7 ≤ cs.length := by
        have := congrArg List.length h7
        simp [httpPref] at this
        omega
      split at h
      · rename_i hr
        have hle := linkRun_le (cs.drop 7)
        simp at hle
        simp at h
        omega
      · simp at h
    · simp at h
/-- The character right after a whole match (if any) is not a link-body
character. -/
theorem linkAt_drop_not_class {cs : List Char} {n : Nat} {c : Char}
    (h : linkAt cs = some n) (hc : (cs.drop n).head? = some c) :
    isLinkChar c = false := by
  rw [linkAt] at h
  split at h
  · split at h
    · simp at h
      refine @linkRun_max (cs.drop 8) _ ?_
      rw [List.drop_drop, show 8 + linkRun (cs.drop 8) = n by omega]
      exact hc
    · simp at h
  · split at h
    · split at h
      · simp at h
        refine @linkRun_max (cs.drop 7) _ ?_
        rw [List.drop_drop, show 7 + linkRun (cs.drop 7) = n by omega]
        exact hc
      · simp at h
    · simp at h
/-- Every character a successful match inspects at offsets 0..7 is a
link-body character (the pattern characters themselves all lie in the
body character set). -/
theorem linkAt_class_at {cs : List Char} {n : Nat} (h : linkAt cs = some n) :
    ∀ j, j ≤ 7 → ∃ c, cs[j]? = some c ∧ isLinkChar c = true := by
  have hps : ∀ j < 8, ∃ c, httpsPref[j]? = some c ∧ isLinkChar c = true := by decide
  have hp : ∀ j < 7, ∃ c, httpPref[j]? = some c ∧ isLinkChar c = true := by decide
  have hiff := @linkAt_isSome_iff cs
  rw [h] at hiff
  simp only [Option.isSome_some, true_iff] at hiff
  intro j hj
  rcases hiff with ⟨h8, _⟩ | ⟨h7, hr⟩
  · obtain ⟨c, hc, hcl⟩ := hps j (by omega)
    refine ⟨c, ?_, hcl⟩
    rw [← h8, List.getElem?_take, if_pos (show j < 8 by omega)] at hc
    exact hc
  · rcases Nat.lt_or_ge j 7 with hj7 | hj7
    · obtain ⟨c, hc, hcl⟩ := hp j hj7
      refine ⟨c, ?_, hcl⟩
      rw [← h7, List.getElem?_take, if_pos hj7] at hc
      exact hc
    · have hj7 : j = 7 := by omega
      subst hj7
      obtain ⟨c, hc, hcl⟩ := linkRun_pos.1 hr
      rw [List.head?_drop] at hc
      exact ⟨c, hc, hcl⟩
theorem linkAt_head_class {cs : List Char} {n : Nat} (h : linkAt cs = some n) :
    ∃ c, cs.head? = some c ∧ isLinkChar c = true := by
  obtain ⟨c, hc, hcl⟩ := linkAt_class_at h 0 (by omega)
  refine ⟨c, ?_, hcl⟩
  cases cs with
  | nil => simp at hc
  | cons a b => simpa using hc
theorem removeLinksFuel_nil (f : Nat) : removeLinksFuel f [] = [] := by
  cases f <;> rfl
/-- Any fuel at least the length of the input gives the same scan
result. -/
theorem removeLinksFuel_irrel :
    ∀ (k : Nat) (cs : List Char) (f g : Nat), cs.length ≤ k →
      cs.length ≤ f → cs.length ≤ g →
      removeLinksFuel f cs = removeLinksFuel g cs := by
  intro k
  induction k with
  | zero =>
    intro cs f g hk _ _
    have hcs : cs = [] := List.length_eq_zero.1 (by omega)
    subst hcs
    rw [removeLinksFuel_nil, removeLinksFuel_nil]
  | succ k ih =>
    intro cs f g hk hf hg
    cases cs with
    | nil => rw [removeLinksFuel_nil, removeLinksFuel_nil]
    | cons c rest =>
      have hlen : (c :: rest).length = rest.length + 1 := rfl
      obtain ⟨f', rfl⟩ : ∃ f', f = f' + 1 :=
        ⟨f - 1, by simp [hlen] at hf; omega⟩
      obtain ⟨g', rfl⟩ : ∃ g', g = g' + 1 :=
        ⟨g - 1, by simp [hlen] at hg; omega⟩
      rw [removeLinksFuel, removeLinksFuel]
      cases hl : linkAt (c :: rest) with
      | some n =>
        obtain ⟨hn8, hnlen⟩ := linkAt_some_bounds hl
        have hdl : (List.drop n (c :: rest)).length = (c :: rest).length - n := by
          simp
        apply ih
        · simp [hlen] at hk ⊢
          omega
        · simp [hlen] at hf ⊢
          omega
        · simp [hlen] at hg ⊢
          omega
      | none =>
        have := ih rest f' g' (by simp [hlen] at hk; omega)
          (by simp [hlen] at hf; omega) (by simp [hlen] at hg; omega)
        rw [this]
theorem removeLinks_cons_some {c : Char} {rest : List Char} {n : Nat}
    (h : linkAt (c :: rest) = some n) :
    removeLinks (c :: rest) = removeLinks (List.drop n (c :: rest)) := by
  obtain ⟨hn8, hnlen⟩ := linkAt_some_bounds h
  rw [removeLinks, removeLinks, show (c :: rest).length = rest.length + 1 from rfl,
    removeLinksFuel, h]
  apply removeLinksFuel_irrel (rest.length)
  · simp
    omega
  · simp
    omega
  · simp
theorem removeLinks_cons_none {c : Char} {rest : List Char}
    (h : linkAt (c :: rest) = none) :
    removeLinks (c :: rest) = c :: removeLinks rest := by
  rw [removeLinks, removeLinks, show (c :: rest).length = rest.length + 1 from rfl,
    removeLinksFuel, h]
theorem removeLinks_length_le_aux :
    ∀ (k : Nat) (l : List Char), l.length ≤ k →
      (removeLinks l).length ≤ l.length := by
  intro k
  induction k with
  | zero =>
    intro l hl
    have hcs : l = [] := List.length_eq_zero.1 (by omega)
    subst hcs
    simp [removeLinks, removeLinksFuel_nil]
  | succ k ih =>
    intro l hl
    cases l with
    | nil => simp [removeLinks, removeLinksFuel_nil]
    | cons c rest =>
      cases hl2 : linkAt (c :: rest) with
      | some n =>
        obtain ⟨hn8, hnlen⟩ := linkAt_some_bounds hl2
        rw [removeLinks_cons_some hl2]
        have := ih (List.drop n (c :: rest)) (by simp at hl ⊢; omega)
        simp at this hnlen ⊢
        omega
      | none =>
        rw [removeLinks_cons_none hl2]
        have := ih rest (by simp at hl; omega)
        simp
        omega
theorem removeLinks_length_le (l : List Char) :
    (removeLinks l).length ≤ l.length :=
  removeLinks_length_le_aux l.length l le_rfl
theorem noMatch_nil : NoMatch [] := by
  intro i
  simp [headMatch, linkAt, httpsPref, httpPref]
theorem noMatch_cons {c : Char} {l : List Char} :
    NoMatch (c :: l) ↔ headMatch (c :: l) = false ∧ NoMatch l := by
  constructor
  · intro h
    exact ⟨h 0, fun i => by simpa using h (i + 1)⟩
  · rintro ⟨h0, h⟩ i
    cases i with
    | zero => exact h0
    | succ i => simpa using h i
theorem removeLinks_eq_self_of_noMatch_aux :
    ∀ (k : Nat) (l : List Char), l.length ≤ k → NoMatch l →
      removeLinks l = l := by
  intro k
  induction k with
  | zero =>
    intro l hl _
    have hcs : l = [] := List.length_eq_zero.1 (by omega)
    subst hcs
    simp [removeLinks, removeLinksFuel_nil]
  | succ k ih =>
    intro l hl h
    cases l with
    | nil => simp [removeLinks, removeLinksFuel_nil]
    | cons c rest =>
      obtain ⟨h0, hrest⟩ := noMatch_cons.1 h
      have hnone : linkAt (c :: rest) = none := by
        rw [headMatch] at h0
        cases hl2 : linkAt (c :: rest) with
        | none => rfl
        | some n => rw [hl2] at h0; simp at h0
      rw [removeLinks_cons_none hnone,
        ih rest (by simp at hl; omega) hrest]
theorem removeLinks_eq_self_of_noMatch {l : List Char} (h : NoMatch l) :
    removeLinks l = l :=
  removeLinks_eq_self_of_noMatch_aux l.length l le_rfl h
theorem noMatch_of_removeLinks_eq_self_aux :
    ∀ (k : Nat) (l : List Char), l.length ≤ k → removeLinks l = l →
      NoMatch l := by
  intro k
  induction k with
  | zero =>
    intro l hl _
    have hcs : l = [] := List.length_eq_zero.1 (by omega)
    subst hcs
    exact noMatch_nil
  | succ k ih =>
    intro l hl h
    cases l with
    | nil => exact noMatch_nil
    | cons c rest =>
      cases hl2 : linkAt (c :: rest) with
      | some n =>
        exfalso
        obtain ⟨hn8, hnlen⟩ := linkAt_some_bounds hl2
        have hlen := removeLinks_length_le (List.drop n (c :: rest))
        rw [removeLinks_cons_some hl2] at h
        have := congrArg List.length h
        simp at this hlen hnlen
        omega
      | none =>
        rw [removeLinks_cons_none hl2] at h
        have htail : removeLinks rest = rest := by
          injection h
        refine noMatch_cons.2 ⟨?_, ih rest (by simp at hl; omega) htail⟩
        rw [headMatch, hl2]
        rfl
theorem noMatch_of_removeLinks_eq_self {l : List Char}
    (h : removeLinks l = l) : NoMatch l :=
  noMatch_of_removeLinks_eq_self_aux l.length l le_rfl h
theorem headSafe_nil : HeadSafe [] := by
  intro c hc
  simp at hc
/-- `removeLinks` preserves a non-link-body head. -/
theorem headSafe_removeLinks {l : List Char} (h : HeadSafe l) :
    HeadSafe (removeLinks l) := by
  cases l with
  | nil =>
    intro c hc
    simp [removeLinks, removeLinksFuel_nil] at hc
  | cons e rest =>
    have he : isLinkChar e = false := h e rfl
    have hnone : linkAt (e :: rest) = none := by
      cases hl : linkAt (e :: rest) with
      | none => rfl
      | some n =>
        obtain ⟨d, hd, hdl⟩ := linkAt_head_class hl
        simp at hd
        rw [hd] at he
        rw [he] at hdl
        simp at hdl
    rw [removeLinks_cons_none hnone]
    intro c hc
    simp at hc
    rw [← hc]
    exact he
theorem headInv_removeLinks_aux :
    ∀ (m : Nat) (l : List Char), l.length ≤ m →
      HeadInv l (removeLinks l) := by
  intro m
  induction m with
  | zero =>
    intro l hl
    have hcs : l = [] := List.length_eq_zero.1 (by omega)
    subst hcs
    left
    simp [removeLinks, removeLinksFuel_nil]
  | succ m ih =>
    intro l hl
    cases l with
    | nil =>
      left
      simp [removeLinks, removeLinksFuel_nil]
    | cons c rest =>
      cases hat : linkAt (c :: rest) with
      | some n =>
        obtain ⟨hn8, hnlen⟩ := linkAt_some_bounds hat
        rw [removeLinks_cons_some hat]
        right
        refine ⟨0, removeLinks (List.drop n (c :: rest)), by omega, by omega,
          by simp, ?_⟩
        apply headSafe_removeLinks
        intro d hd
        exact linkAt_drop_not_class hat hd
      | none =>
        rw [removeLinks_cons_none hat]
        rcases ih rest (by simp at hl; omega) with hleft | ⟨k, rr, hk7, hklen, heq, hsafe⟩
        · left
          have h7 : (removeLinks rest).take 7 = rest.take 7 := by
            rw [show (7 : Nat) = min 7 8 by norm_num, ← List.take_take,
              ← List.take_take (m := 8), hleft]
          simp [List.take_succ_cons, h7]
        · rcases Nat.lt_or_ge k 7 with hk6 | hk7e
          · right
            refine ⟨k + 1, rr, by omega, by simp; omega, ?_, hsafe⟩
            simp [List.take_succ_cons, heq]
          · have hk7' : k = 7 := by omega
            subst hk7'
            left
            have hlen7 : (rest.take 7).length = 7 := by
              simp
              omega
            have h7 : (removeLinks rest).take 7 = rest.take 7 := by
              rw [heq, List.take_left' hlen7]
            simp [List.take_succ_cons]
            exact h7
theorem headInv_removeLinks (l : List Char) : HeadInv l (removeLinks l) :=
  headInv_removeLinks_aux l.length l le_rfl
theorem take7_of_take8_eq {r l : List Char} (h : r.take 8 = l.take 8) :
    r.take 7 = l.take 7 := by
  rw [show (7 : Nat) = min 7 8 by norm_num, ← List.take_take, h, List.take_take]
theorem linkRun_pos_head_eq {x y : List Char} (h : x.head? = y.head?) :
    0 < linkRun x ↔ 0 < linkRun y := by
  rw [linkRun_pos, linkRun_pos, h]
/-- The seam lemma: if the pattern did not match at `c :: l` and `r`
relates to `l` by the head invariant, the pattern does not match at
`c :: r` either.  This is exactly the reason the scan output stays
match-free when a kept character is consed back on. -/
theorem linkAt_none_of_headInv {c : Char} {l r : List Char}
    (hnone : linkAt (c :: l) = none) (hinv : HeadInv l r) :
    linkAt (c :: r) = none := by
  cases hat : linkAt (c :: r) with
  | none => rfl
  | some n =>
    exfalso
    have hshape := linkAt_isSome_iff.1 (by rw [hat]; rfl)
    have hnoshape := linkAt_none_iff.1 hnone
    rcases hinv with hleft | ⟨k, rr, hk7, hklen, heq, hsafe⟩
    · -- first eight characters of r agree with l: shapes transfer directly
      apply hnoshape
      have htk : ∀ m : Nat, m ≤ 8 → r.take m = l.take m := by
        intro m hm
        rw [show m = min m 8 by omega, ← List.take_take, hleft, List.take_take]
      have hge : ∀ j : Nat, j < 8 → r[j]? = l[j]? := by
        intro j hj
        rw [show r[j]? = (r.take 8)[j]? by rw [List.getElem?_take, if_pos hj],
          hleft, List.getElem?_take, if_pos hj]
      rcases hshape with ⟨h8, hr⟩ | ⟨h7, hr⟩
      · left
        rw [List.take_succ_cons] at h8 ⊢
        rw [List.drop_succ_cons] at hr ⊢
        refine ⟨by rw [← htk 7 (by omega)]; exact h8, ?_⟩
        rw [linkRun_pos_head_eq (x := l.drop 7) (y := r.drop 7) (by
          rw [List.head?_drop, List.head?_drop]
          exact (hge 7 (by omega)).symm)]
        exact hr
      · right
        rw [List.take_succ_cons] at h7 ⊢
        rw [List.drop_succ_cons] at hr ⊢
        refine ⟨by rw [← htk 6 (by omega)]; exact h7, ?_⟩
        rw [linkRun_pos_head_eq (x := l.drop 6) (y := r.drop 6) (by
          rw [List.head?_drop, List.head?_drop]
          exact (hge 6 (by omega)).symm)]
        exact hr
    · -- a removal happened within the first eight characters of l
      have hklen' : (l.take k).length = k := by
        simp
        omega
      rcases Nat.lt_or_ge k 7 with hk6 | hk7e
      · -- the seam sits at offset k ≤ 6 of r, where a match needs a
        -- link-body character but the seam guarantees none
        obtain ⟨d, hd, hdl⟩ := linkAt_class_at hat (k + 1) (by omega)
        have hkr : (c :: r)[k + 1]? = rr.head? := by
          simp only [List.getElem?_cons_succ]
          rw [heq, List.getElem?_append, if_neg (by omega), hklen']
          simp
          rw [← List.head?_drop]
          simp
        rw [hkr] at hd
        rw [hsafe d hd] at hdl
        simp at hdl
      · have hk7e' : k = 7 := by omega
        subst hk7e'
        rcases hshape with ⟨_, hr⟩ | ⟨h7, hr⟩
        · -- https shape: the run character at offset 8 is the seam head
          rw [List.drop_succ_cons, heq, List.drop_left' hklen'] at hr
          obtain ⟨d, hd, hdl⟩ := linkRun_pos.1 hr
          rw [hsafe d hd] at hdl
          simp at hdl
        · -- http shape transfers to l and contradicts the original miss
          apply hnoshape
          right
          have h6 : r.take 6 = l.take 6 := by
            rw [heq, List.take_append_eq_append_take, hklen',
              show 6 - 7 = 0 by norm_num]
            simp
            rw [List.take_take]
            norm_num
          rw [List.take_succ_cons] at h7 ⊢
          rw [List.drop_succ_cons] at hr ⊢
          refine ⟨by rw [← h6]; exact h7, ?_⟩
          rw [linkRun_pos_head_eq (x := l.drop 6) (y := r.drop 6) (by
            rw [List.head?_drop, List.head?_drop, heq, List.getElem?_append,
              if_pos (by rw [hklen']; omega)]
            rw [List.getElem?_take, if_pos (by omega)])]
          exact hr
/-- The scan output is match-free at every position. -/
theorem noMatch_removeLinks_aux :
    ∀ (m : Nat) (l : List Char), l.length ≤ m → NoMatch (removeLinks l) := by
  intro m
  induction m with
  | zero =>
    intro l hl
    have hcs : l = [] := List.length_eq_zero.1 (by omega)
    subst hcs
    rw [removeLinks, removeLinksFuel_nil]
    exact noMatch_nil
  | succ m ih =>
    intro l hl
    cases l with
    | nil =>
      rw [removeLinks, removeLinksFuel_nil]
      exact noMatch_nil
    | cons c rest =>
      cases hat : linkAt (c :: rest) with
      | some n =>
        obtain ⟨hn8, hnlen⟩ := linkAt_some_bounds hat
        rw [removeLinks_cons_some hat]
        exact ih _ (by simp at hl ⊢; omega)
      | none =>
        rw [removeLinks_cons_none hat]
        refine noMatch_cons.2 ⟨?_, ih rest (by simp at hl; omega)⟩
        rw [headMatch, linkAt_none_of_headInv hat (headInv_removeLinks rest)]
        rfl
theorem noMatch_removeLinks (l : List Char) : NoMatch (removeLinks l) :=
  noMatch_removeLinks_aux l.length l le_rfl
/-- `_remove_links` is idempotent. -/
theorem removeLinks_idem (l : List Char) :
    removeLinks (removeLinks l) = removeLinks l :=
  removeLinks_eq_self_of_noMatch (noMatch_removeLinks l)
theorem noMatch_drop {l : List Char} (h : NoMatch l) (j : Nat) :
    NoMatch (l.drop j) := by
  intro i
  rw [List.drop_drop]
  exact h (j + i)
theorem linkRun_pos_of_take {x : List Char} {j : Nat}
    (h : 0 < linkRun (x.take j)) : 0 < linkRun x := by
  obtain ⟨c, hc, hcl⟩ := linkRun_pos.1 h
  apply linkRun_pos.2
  refine ⟨c, ?_, hcl⟩
  cases x with
  | nil => simp at hc
  | cons a b =>
    cases j with
    | zero => simp at hc
    | succ j => simpa using hc
/-- A match inside a prefix is a match in the whole string. -/
theorem headMatch_of_take {x : List Char} {j : Nat}
    (h : headMatch (x.take j) = true) : headMatch x = true := by
  rw [headMatch, Option.isSome_iff_ne_none] at h ⊢
  intro hx
  apply h
  rw [linkAt_none_iff] at hx ⊢
  intro hc
  apply hx
  rcases hc with ⟨h8, hr⟩ | ⟨h7, hr⟩
  · have hj8 : 8 ≤ j := by
      by_contra hj
      have := congrArg List.length h8
      simp [httpsPref] at this
      omega
    left
    constructor
    · rw [← h8, List.take_take, show min 8 j = 8 by omega]
    · rw [List.drop_take] at hr
      exact linkRun_pos_of_take hr
  · have hj7 : 7 ≤ j := by
      by_contra hj
      have := congrArg List.length h7
      simp [httpPref] at this
      omega
    right
    constructor
    · rw [← h7, List.take_take, show min 7 j = 7 by omega]
    · rw [List.drop_take] at hr
      exact linkRun_pos_of_take hr
theorem noMatch_take {l : List Char} (h : NoMatch l) (j : Nat) :
    NoMatch (l.take j) := by
  intro i
  cases hm : headMatch ((l.take j).drop i) with
  | false => rfl
  | true =>
    exfalso
    rw [List.drop_take] at hm
    have := headMatch_of_take hm
    rw [h i] at this
    simp at this
theorem noMatch_prefix {l m : List Char} (hp : l <+: m) (h : NoMatch m) :
    NoMatch l := by
  obtain ⟨t, rfl⟩ := hp
  have := noMatch_take h l.length
  rwa [List.take_left] at this
theorem noMatch_suffix {l m : List Char} (hs : l <:+ m) (h : NoMatch m) :
    NoMatch l := by
  obtain ⟨t, rfl⟩ := hs
  have := noMatch_drop h t.length
  rwa [List.drop_left] at this
theorem noMatch_lstrip {l : List Char} (h : NoMatch l) :
    NoMatch (pyLStrip l) :=
  noMatch_suffix (List.dropWhile_suffix _) h
theorem noMatch_rstrip {l : List Char} (h : NoMatch l) :
    NoMatch (pyRStrip l) :=
  noMatch_prefix (rstrip_pref _) h
theorem noMatch_strip {l : List Char} (h : NoMatch l) :
    NoMatch (pyStrip l) :=
  noMatch_rstrip (noMatch_lstrip h)
/-- Filtering never introduces a character: the result is a sublist. -/
theorem strip_sublist (l : List Char) : (pyStrip l).Sublist l :=
  ((rstrip_pref (pyLStrip l)).sublist).trans
    ((List.dropWhile_suffix (l := l) pyIsSpace).sublist)

/-! ### Claim C6: idempotence of `_clean_text` -/
/-- C6 (counterexample): `_clean_text` with both link removal and emoji
removal enabled is not idempotent.  Links are removed before emojis, so
deleting the emoji from `"ht😀tp://ab"` splices together the URL
`"http://ab"`, which survives the first pass and is removed by the
second. -/
theorem clean_not_idempotent_both_options :
    cleanText true true true tableEmoji
        (cleanText true true true tableEmoji ('h' :: 't' :: '😀' :: "tp://ab".data)) ≠
      cleanText true true true tableEmoji ('h' :: 't' :: '😀' :: "tp://ab".data) := by
  decide
/-- C6 (amended): `_clean_text` is a total function and is idempotent for
every combination of the link-removal and emoji-removal options except
both enabled together (where emoji removal may splice together a URL that
only the second application removes, as the counterexample shows). -/
theorem clean_idempotent_of_not_both (links emojis : Bool)
    (h : ¬(links = true ∧ emojis = true)) (isEmoji : Char → Bool)
    (x : List Char) :
    cleanText links emojis true isEmoji (cleanText links emojis true isEmoji x) =
      cleanText links emojis true isEmoji x := by
  cases links with
  | true =>
    cases emojis with
    | true => exact absurd ⟨rfl, rfl⟩ h
    | false =>
      show pyStrip (removeLinks (pyStrip (removeLinks x))) =
        pyStrip (removeLinks x)
      rw [removeLinks_eq_self_of_noMatch (noMatch_strip (noMatch_removeLinks x)),
        strip_idem]
  | false =>
    cases emojis with
    | true =>
      show pyStrip (removeEmojis isEmoji (pyStrip (removeEmojis isEmoji x))) =
        pyStrip (removeEmojis isEmoji x)
      have hfe : removeEmojis isEmoji (pyStrip (removeEmojis isEmoji x)) =
          pyStrip (removeEmojis isEmoji x) := by
        rw [removeEmojis, List.filter_eq_self]
        intro a ha
        have : a ∈ removeEmojis isEmoji x :=
          (strip_sublist (removeEmojis isEmoji x)).mem ha
        exact (List.mem_filter.1 this).2
      rw [hfe, strip_idem]
    | false =>
      show pyStrip (pyStrip x) = pyStrip x
      exact strip_idem x
/-- C6 (witness): the amended idempotence instantiated with only link
removal enabled on a concrete string. -/
theorem clean_idempotent_of_not_both_witness :
    ¬((true : Bool) = true ∧ (false : Bool) = true) ∧
      cleanText true false true tableEmoji
          (cleanText true false true tableEmoji " See http://ab now ".data) =
        cleanText true false true tableEmoji " See http://ab now ".data :=
  ⟨by simp, clean_idempotent_of_not_both true false (by simp) tableEmoji
    " See http://ab now ".data⟩

/-! ### Concrete fixtures for the closed statements below -/
theorem processChar_cfg (tok : List Char → List (List Char))
    (st : SplitterState) (c : Char) :
    (processChar tok st c).state.cfg = st.cfg := by
  simp only [processChar]
  repeat' split
  all_goals rfl
theorem processChar_inputBuffer (tok : List Char → List (List Char))
    (st : SplitterState) (c : Char) :
    (processChar tok st c).state.inputBuffer = st.inputBuffer := by
  simp only [processChar]
  repeat' split
  all_goals rfl

/-! ### Claim C10: `flush` does not mutate the splitter -/
/-- C10: `flush` assigns no instance attribute, so the state after a
flush equals the state before it, a second flush yields exactly the
same sentence sequence, and a flush on an empty buffer yields
nothing. -/
theorem flush_does_not_mutate (tok : List Char → List (List Char))
    (st : SplitterState) :
    (flushOp tok st).1 = st ∧
    (flushOp tok (flushOp tok st).1).2 = (flushOp tok st).2 ∧
    (st.buffer = [] → (flushOp tok st).2 = []) := by
  refine ⟨rfl, rfl, fun h => ?_⟩
  simp [flushOp, flushEmissions, h]
/-- C10 (witness): the flush theorem at a freshly constructed splitter,
whose buffer is empty. -/
theorem flush_does_not_mutate_witness :
    (initState cfgDefault).buffer = [] ∧
      (flushOp wholeTok (initState cfgDefault)).2 = [] :=
  ⟨rfl, (flush_does_not_mutate wholeTok (initState cfgDefault)).2.2 rfl⟩

/-! ### Claim C5: the commit decision -/
/-- C5: the drive loop emits through the commit path only when the
merged sentence list has length greater than two, or the recorded last
full-sentence-delimiter position lies inside the context window; and in
that case the buffer has already outgrown
`minimum_sentence_length + context_size`.  Moreover no commit analysis
(tokenizer invocation) happens at all while the buffer is within that
bound. -/
theorem commit_decision (tok : List Char → List (List Char))
    (st : SplitterState) (c : Char) :
    (∀ e ∈ (processChar tok st c).emissions, e.kind = .commit →
      (2 < (mergedAfter tok st c).length ∨
        (0 ≤ ldpAfter st c ∧ cwStartAfter st c ≤ ldpAfter st c ∧
          ldpAfter st c ≤ cwEndAfter st c)) ∧
      st.cfg.minimumSentenceLength + st.cfg.contextSize <
        (bufAfter st c).length) ∧
    (0 < (processChar tok st c).analyzed →
      st.cfg.minimumSentenceLength + st.cfg.contextSize <
        (bufAfter st c).length) := by
  constructor
  · intro e he hk
    simp only [processChar] at he
    split at he
    · simp at he
    · split at he
      · rw [List.mem_singleton] at he
        subst he
        simp at hk
      · split at he
        · simp at he
        · rename_i hshort
          split at he
          · rename_i hguard
            split at he
            · split at he
              · exact ⟨hguard, by omega⟩
              · simp at he
            · simp at he
          · simp at he
  · intro ha
    simp only [processChar] at ha
    split at ha
    · simp at ha
    · split at ha
      · simp at ha
      · split at ha
        · simp at ha
        · rename_i hshort
          omega
/-- C5 (witness): the commit decision applied at a concrete step that
emits a sentence through the commit path. -/
theorem commit_decision_witness :
    (⟨.commit, "First sentence okay.".data⟩ : Emission) ∈
        (processChar splitTok stAboutToCommit 't').emissions ∧
      ((2 < (mergedAfter splitTok stAboutToCommit 't').length ∨
          (0 ≤ ldpAfter stAboutToCommit 't' ∧
            cwStartAfter stAboutToCommit 't' ≤ ldpAfter stAboutToCommit 't' ∧
            ldpAfter stAboutToCommit 't' ≤ cwEndAfter stAboutToCommit 't')) ∧
        stAboutToCommit.cfg.minimumSentenceLength +
            stAboutToCommit.cfg.contextSize <
          (bufAfter stAboutToCommit 't').length) :=
  ⟨by decide,
    (commit_decision splitTok stAboutToCommit 't').1
      ⟨.commit, "First sentence okay.".data⟩ (by decide) rfl⟩

/-! ### Claim C1: no input text is ever lost -/
theorem cleanSplitter_off {cfg : SplitterConfig}
    (hl : cfg.cleanupTextLinks = false) (he : cfg.cleanupTextEmojis = false)
    (t : List Char) : cleanSplitter cfg t = pyStrip t := by
  simp [cleanSplitter, cleanText, hl, he]
theorem emsText_append (a b : List Emission) :
    emsText (a ++ b) = emsText a ++ emsText b := by
  rw [emsText, List.map_append, List.flatten_append]
  rfl
theorem emsText_map_mk (k : EmissionKind) (g : List Char → List Char)
    (L : List (List Char)) :
    emsText (L.map (fun s => ⟨k, g s⟩)) = (L.map g).flatten := by
  rw [emsText, List.map_map]
  rfl
theorem noWS_flatten_map_strip (L : List (List Char)) :
    noWS ((L.map pyStrip).flatten) = noWS L.flatten := by
  induction L with
  | nil => rfl
  | cons s rest ih =>
    simp only [List.map_cons, List.flatten_cons, noWS_append, noWS_strip, ih]
theorem dropLast_append_getLastD {L : List (List Char)} (h : L ≠ []) :
    L.dropLast ++ [L.getLastD []] = L := by
  rw [List.getLastD_eq_getLast?, List.getLast?_eq_getLast L h]
  exact List.dropLast_append_getLast h
/-- The merge pass preserves the non-whitespace character stream (the
carry accumulates in front). -/
theorem merge_noWS (m : Nat) :
    ∀ (l : List (List Char)) (temp : List Char),
      noWS (mergeSentences m l temp).flatten = noWS (temp ++ l.flatten) := by
  intro l
  induction l with
  | nil =>
    intro temp
    rw [mergeSentences]
    split
    · rename_i h
      subst h
      rfl
    · simp [noWS_append, noWS_strip]
  | cons s rest ih =>
    intro temp
    rw [mergeSentences]
    split
    · rw [ih]
      simp [noWS_append, noWS_space, noWS_cons_space, List.append_assoc]
    · split
      · rename_i h
        subst h
        simp [List.flatten_cons, noWS_append, noWS_strip, ih, List.append_assoc]
      · simp [List.flatten_cons, noWS_append, noWS_strip, ih, List.append_assoc]
/-- The flush accumulation loop preserves the non-whitespace character
stream. -/
theorem flushLoop_noWS {cfg : SplitterConfig}
    (hl : cfg.cleanupTextLinks = false) (he : cfg.cleanupTextEmojis = false) :
    ∀ (l : List (List Char)) (sb : List Char),
      noWS (emsText (flushLoop cfg l sb)) = noWS (sb ++ l.flatten) := by
  intro l
  induction l with
  | nil =>
    intro sb
    rw [flushLoop]
    split
    · rename_i h
      subst h
      rfl
    · simp [emsText, cleanSplitter_off hl he, noWS_strip, noWS_append]
  | cons s rest ih =>
    intro sb
    rw [flushLoop]
    split
    · rw [ih]
      simp [noWS_append, noWS_space, noWS_cons_space, List.append_assoc]
    · rename_i hlen
      have hc : emsText (⟨.flushMid, cleanSplitter cfg (sb ++ s)⟩ ::
          flushLoop cfg rest []) =
          cleanSplitter cfg (sb ++ s) ++ emsText (flushLoop cfg rest []) := by
        rw [emsText, List.map_cons, List.flatten_cons]
        rfl
      rw [hc, cleanSplitter_off hl he, noWS_append, noWS_strip, ih]
      simp [noWS_append, List.append_assoc]
/-- One character step preserves the non-whitespace character stream:
what is emitted plus what stays in the buffer carries exactly the
non-whitespace characters of the old buffer and the new character. -/
theorem processChar_noWS (tok : List Char → List (List Char))
    (st : SplitterState) (c : Char)
    (hf : st.cfg.filterFirstNonAlnumCharacters = false)
    (hl : st.cfg.cleanupTextLinks = false)
    (he : st.cfg.cleanupTextEmojis = false)
    (htok : ∀ t, noWS (tok t).flatten = noWS t) :
    noWS (emsText (processChar tok st c).emissions ++
        (processChar tok st c).state.buffer) =
      noWS (st.buffer ++ [c]) := by
  simp only [processChar]
  split
  · rename_i hcond
    rw [hf] at hcond
    simp at hcond
  · split
    · -- quick-yield: the whole buffer is emitted, stripped
      simp only [emsText, List.map_cons, List.map_nil, List.flatten_cons,
        List.flatten_nil, List.append_nil]
      rw [cleanSplitter_off hl he, noWS_strip, bufAfter]
      exact noWS_lstrip _
    · split
      · -- still accumulating
        simp only [emsText, List.map_nil, List.flatten_nil, List.nil_append,
          bufAfter]
        exact noWS_lstrip _
      · split
        · split
          · split
            · -- the commit path
              rename_i hg2 hg1 hgtot
              have hne : mergedAfter tok st c ≠ [] := by
                intro hnil
                rw [hnil] at hg1
                simp at hg1
              rw [emsText_map_mk, noWS_append, noWS_append]
              have hsp : noWS ((if (bufAfter st c).getLast? = some ' '
                  then [' '] else [] : List Char)) = [] := by
                split
                · rfl
                · rfl
              rw [hsp, List.append_nil]
              have hstrip : noWS (((mergedAfter tok st c).dropLast.map
                    (fun s => cleanSplitter st.cfg s)).flatten) =
                  noWS (mergedAfter tok st c).dropLast.flatten := by
                simp only [cleanSplitter_off hl he]
                exact noWS_flatten_map_strip _
              rw [hstrip]
              have hjoin : noWS (mergedAfter tok st c).dropLast.flatten ++
                  noWS ((mergedAfter tok st c).getLastD []) =
                  noWS (mergedAfter tok st c).flatten := by
                rw [← noWS_append]
                have hfl : (mergedAfter tok st c).dropLast.flatten ++
                    (mergedAfter tok st c).getLastD [] =
                    (mergedAfter tok st c).flatten := by
                  conv_rhs => rw [← dropLast_append_getLastD hne]
                  rw [List.flatten_append]
                  simp
                rw [hfl]
              rw [hjoin, mergedAfter, merge_noWS, List.nil_append, htok,
                bufAfter]
              exact noWS_lstrip _
            · simp only [emsText, List.map_nil, List.flatten_nil,
                List.nil_append, bufAfter]
              exact noWS_lstrip _
          · simp only [emsText, List.map_nil, List.flatten_nil,
              List.nil_append, bufAfter]
            exact noWS_lstrip _
        · simp only [emsText, List.map_nil, List.flatten_nil,
            List.nil_append, bufAfter]
          exact noWS_lstrip _
theorem processChunk_cfg (tok : List Char → List (List Char)) :
    ∀ (chunk : List Char) (st : SplitterState),
      (processChunk tok st chunk).state.cfg = st.cfg := by
  intro chunk
  induction chunk with
  | nil => intro st; rfl
  | cons c cs ih =>
    intro st
    rw [processChunk]
    simp only []
    rw [ih, processChar_cfg]
theorem processChunk_inputBuffer (tok : List Char → List (List Char)) :
    ∀ (chunk : List Char) (st : SplitterState),
      (processChunk tok st chunk).state.inputBuffer = st.inputBuffer := by
  intro chunk
  induction chunk with
  | nil => intro st; rfl
  | cons c cs ih =>
    intro st
    rw [processChunk]
    simp only []
    rw [ih, processChar_inputBuffer]
/-- Gluing two conservation steps along a shared intermediate buffer. -/
theorem noWS_glue {ea bufa eb bufb prev mid rest : List Char}
    (hstep : noWS ea ++ noWS bufa = noWS (prev ++ mid))
    (hrest : noWS eb ++ noWS bufb = noWS (bufa ++ rest)) :
    noWS ((ea ++ eb) ++ bufb) = noWS (prev ++ (mid ++ rest)) := by
  rw [noWS_append, noWS_append, List.append_assoc, hrest, noWS_append,
    ← List.append_assoc, hstep, ← noWS_append, List.append_assoc]
theorem processChunk_noWS (tok : List Char → List (List Char))
    (htok : ∀ t, noWS (tok t).flatten = noWS t) :
    ∀ (chunk : List Char) (st : SplitterState),
      st.cfg.filterFirstNonAlnumCharacters = false →
      st.cfg.cleanupTextLinks = false →
      st.cfg.cleanupTextEmojis = false →
      noWS (emsText (processChunk tok st chunk).emissions ++
          (processChunk tok st chunk).state.buffer) =
        noWS (st.buffer ++ chunk) := by
  intro chunk
  induction chunk with
  | nil =>
    intro st _ _ _
    simp [processChunk, emsText]
  | cons c cs ih =>
    intro st hf hl he
    rw [processChunk]
    simp only []
    have hstep := processChar_noWS tok st c hf hl he htok
    have hcfg := processChar_cfg tok st c
    have hrest := ih (processChar tok st c).state
      (by rw [hcfg]; exact hf) (by rw [hcfg]; exact hl) (by rw [hcfg]; exact he)
    rw [emsText_append]
    rw [noWS_append] at hstep hrest
    exact noWS_glue hstep hrest
theorem streamChunks_cfg (tok : List Char → List (List Char)) :
    ∀ (chunks : List (List Char)) (st : SplitterState),
      (streamChunks tok st chunks).state.cfg = st.cfg := by
  intro chunks
  induction chunks with
  | nil => intro st; rfl
  | cons ch rest ih =>
    intro st
    rw [streamChunks]
    simp only []
    rw [ih, processChunk_cfg]
theorem streamChunks_inputBuffer (tok : List Char → List (List Char)) :
    ∀ (chunks : List (List Char)) (st : SplitterState),
      (streamChunks tok st chunks).state.inputBuffer = st.inputBuffer := by
  intro chunks
  induction chunks with
  | nil => intro st; rfl
  | cons ch rest ih =>
    intro st
    rw [streamChunks]
    simp only []
    rw [ih, processChunk_inputBuffer]
theorem streamChunks_noWS (tok : List Char → List (List Char))
    (htok : ∀ t, noWS (tok t).flatten = noWS t) :
    ∀ (chunks : List (List Char)) (st : SplitterState),
      st.cfg.filterFirstNonAlnumCharacters = false →
      st.cfg.cleanupTextLinks = false →
      st.cfg.cleanupTextEmojis = false →
      noWS (emsText (streamChunks tok st chunks).emissions ++
          (streamChunks tok st chunks).state.buffer) =
        noWS (st.buffer ++ chunks.flatten) := by
  intro chunks
  induction chunks with
  | nil =>
    intro st _ _ _
    simp [streamChunks, emsText]
  | cons ch rest ih =>
    intro st hf hl he
    rw [streamChunks]
    simp only []
    have hstep := processChunk_noWS tok htok ch st hf hl he
    have hcfg := processChunk_cfg tok ch st
    have hrest := ih (processChunk tok st ch).state
      (by rw [hcfg]; exact hf) (by rw [hcfg]; exact hl) (by rw [hcfg]; exact he)
    rw [emsText_append, List.flatten_cons]
    rw [noWS_append] at hstep hrest
    exact noWS_glue hstep hrest
theorem streamRun_cfg (tok : List Char → List (List Char))
    (st : SplitterState) : (streamRun tok st).state.cfg = st.cfg := by
  rw [streamRun, streamChunks_cfg]
theorem streamRun_inputBuffer (tok : List Char → List (List Char))
    (st : SplitterState) : (streamRun tok st).state.inputBuffer = [] := by
  rw [streamRun, streamChunks_inputBuffer]
theorem runFrags_cfg (tok : List Char → List (List Char)) :
    ∀ (frags : List (List Char)) (st : SplitterState),
      (runFrags tok st frags).state.cfg = st.cfg := by
  intro frags
  induction frags with
  | nil => intro st; rfl
  | cons f rest ih =>
    intro st
    rw [runFrags]
    simp only []
    rw [ih, streamRun_cfg]
    rfl
theorem runFrags_noWS (tok : List Char → List (List Char))
    (htok : ∀ t, noWS (tok t).flatten = noWS t) :
    ∀ (frags : List (List Char)) (st : SplitterState),
      st.inputBuffer = [] →
      st.cfg.filterFirstNonAlnumCharacters = false →
      st.cfg.cleanupTextLinks = false →
      st.cfg.cleanupTextEmojis = false →
      noWS (emsText (runFrags tok st frags).emissions ++
          (runFrags tok st frags).state.buffer) =
        noWS (st.buffer ++ frags.flatten) := by
  intro frags
  induction frags with
  | nil =>
    intro st _ _ _ _
    simp [runFrags, emsText]
  | cons f rest ih =>
    intro st hib hf hl he
    rw [runFrags]
    simp only []
    have haddib : (addChunk st f).inputBuffer = [f] := by
      simp [addChunk, hib]
    have hstep' := streamChunks_noWS tok htok (addChunk st f).inputBuffer
      { addChunk st f with inputBuffer := [] } hf hl he
    rw [haddib] at hstep'
    have hstep : noWS (emsText (streamRun tok (addChunk st f)).emissions ++
        (streamRun tok (addChunk st f)).state.buffer) =
        noWS (st.buffer ++ f) := by
      rw [streamRun, haddib]
      have := streamChunks_noWS tok htok [f]
        { addChunk st f with inputBuffer := [] } hf hl he
      rw [this]
      simp [addChunk]
    have hcfg := streamRun_cfg tok (addChunk st f)
    have hib2 := streamRun_inputBuffer tok (addChunk st f)
    have hrest := ih (streamRun tok (addChunk st f)).state hib2
      (by rw [hcfg]; exact hf) (by rw [hcfg]; exact hl) (by rw [hcfg]; exact he)
    rw [emsText_append, List.flatten_cons]
    rw [noWS_append] at hstep hrest
    exact noWS_glue hstep hrest
/-- C1: with the leading non-alphanumeric filter off and sanitization
options off (the claim compares the streams ignoring sanitization and
ignoring the filtered characters), and for any tokenizer that preserves
the non-whitespace characters of its input (the oracle contract), the
concatenation of everything emitted by `stream` over the added
fragments followed by one `flush` equals the concatenation of the input
fragments, up to whitespace normalization.  No input text is ever
silently dropped. -/
theorem no_loss (tok : List Char → List (List Char)) (cfg : SplitterConfig)
    (frags : List (List Char))
    (hf : cfg.filterFirstNonAlnumCharacters = false)
    (hl : cfg.cleanupTextLinks = false)
    (he : cfg.cleanupTextEmojis = false)
    (htok : ∀ t, noWS (tok t).flatten = noWS t) :
    noWS (emsText (runSplitter tok cfg frags)) = noWS frags.flatten := by
  rw [runSplitter, emsText_append, noWS_append]
  have hcfg : (runSplitterResult tok cfg frags).state.cfg =
      applyQuickYieldCascade cfg := by
    rw [runSplitterResult, runFrags_cfg]
    rfl
  have hrun := runFrags_noWS tok htok frags (initState cfg) rfl hf hl he
  rw [noWS_append] at hrun
  have hflush : noWS (emsText (flushEmissions tok
      (runSplitterResult tok cfg frags).state)) =
      noWS (runSplitterResult tok cfg frags).state.buffer := by
    rw [flushEmissions]
    split
    · rename_i h
      rw [h]
      rfl
    · rw [@flushLoop_noWS (runSplitterResult tok cfg frags).state.cfg
        (by rw [hcfg]; exact hl) (by rw [hcfg]; exact he), List.nil_append,
        htok]
  rw [hflush]
  rw [runSplitterResult] at hflush ⊢
  rw [hrun]
  rfl
/-- C1 (witness): no-loss evaluated on a concrete two-fragment stream
with the identity-like whole-buffer tokenizer. -/
theorem no_loss_witness :
    cfgDefault.filterFirstNonAlnumCharacters = false ∧
      noWS (emsText (runSplitter wholeTok cfgDefault
          ["Hello there. ".data, "How are you? ".data])) =
        noWS (["Hello there. ".data, "How are you? ".data] :
          List (List Char)).flatten :=
  ⟨rfl, no_loss wholeTok cfgDefault _ rfl rfl rfl
    (fun t => by
      rw [wholeTok]
      split
      · rename_i h
        rw [← noWS_strip t, h]
        rfl
      · rw [List.flatten_cons, List.flatten_nil, List.append_nil, noWS_strip])⟩

/-! ### Claim C2: minimum sentence length -/
theorem stripped_lstrip {s : List Char} (h : pyStrip s = s) :
    pyLStrip s = s := by
  have h1 : (pyLStrip s).length ≤ s.length :=
    List.IsSuffix.length_le (List.dropWhile_suffix pyIsSpace)
  have h2 : (pyStrip s).length ≤ (pyLStrip s).length :=
    (rstrip_pref (pyLStrip s)).length_le
  rw [h] at h2
  exact List.IsSuffix.eq_of_length
    (List.dropWhile_suffix pyIsSpace) (by
      have h3 : (pyStrip s).length ≤ (pyLStrip s).length :=
        (rstrip_pref (pyLStrip s)).length_le
      rw [h] at h3
      omega)
theorem stripped_rstrip {s : List Char} (h : pyStrip s = s) :
    pyRStrip s = s := by
  have hls := stripped_lstrip h
  rw [pyStrip, hls] at h
  exact h
theorem stripped_head_not_space {s : List Char} (h : pyStrip s = s)
    {c : Char} (hc : s.head? = some c) : pyIsSpace c = false :=
  lstrip_head_not_space (by rw [stripped_lstrip h]; exact hc)
theorem stripped_last_not_space {s : List Char} (h : pyStrip s = s)
    {c : Char} (hc : s.getLast? = some c) : pyIsSpace c = false :=
  rstrip_getLast_not_space (by rw [stripped_rstrip h]; exact hc)
theorem carryOK_append {temp s : List Char} (ht : CarryOK temp)
    (hs : s ≠ [] → (∃ c, s.head? = some c ∧ pyIsSpace c = false)) :
    CarryOK (temp ++ s) := by
  rcases ht with rfl | ⟨c, hc, hcs⟩
  · rw [List.nil_append]
    cases hse : s with
    | nil => exact Or.inl rfl
    | cons a t =>
      right
      exact hse ▸ hs (by rw [hse]; simp)
  · right
    refine ⟨c, ?_, hcs⟩
    rw [List.head?_append, hc]
    rfl
theorem stripped_nonempty_head {s : List Char} (hne : s ≠ [])
    (hs : pyStrip s = s) : ∃ c, s.head? = some c ∧ pyIsSpace c = false := by
  cases s with
  | nil => exact absurd rfl hne
  | cons a t => exact ⟨a, rfl, stripped_head_not_space hs rfl⟩
/-- A carry with non-whitespace head followed by a stripped nonempty
sentence is itself stripped. -/
theorem strip_carry_append {temp s : List Char} (ht : CarryOK temp)
    (hne : s ≠ []) (hs : pyStrip s = s) :
    pyStrip (temp ++ s) = temp ++ s := by
  apply strip_eq_self
  · intro c hc
    rcases ht with rfl | ⟨d, hd, hds⟩
    · rw [List.nil_append] at hc
      exact stripped_head_not_space hs hc
    · rw [List.head?_append, hd] at hc
      simp at hc
      rw [← hc]
      exact hds
  · intro c hc
    rw [List.getLast?_append] at hc
    obtain ⟨d, hd, hds⟩ := stripped_nonempty_head hne hs
    have hlast : s.getLast? ≠ none := by
      cases s with
      | nil => exact absurd rfl hne
      | cons a t => simp
    cases hsl : s.getLast? with
    | none => exact absurd hsl hlast
    | some d2 =>
      rw [hsl] at hc
      simp at hc
      rw [← hc]
      exact stripped_last_not_space hs hsl
/-- Every element the merge pass produces is already stripped. -/
theorem merge_stripped (m : Nat) :
    ∀ (l : List (List Char)) (temp : List Char),
      ∀ x ∈ mergeSentences m l temp, pyStrip x = x := by
  intro l
  induction l with
  | nil =>
    intro temp x hx
    rw [mergeSentences] at hx
    split at hx
    · simp at hx
    · rw [List.mem_singleton] at hx
      rw [hx, strip_idem]
  | cons s rest ih =>
    intro temp x hx
    rw [mergeSentences] at hx
    split at hx
    · exact ih _ x hx
    · split at hx <;>
        (rcases List.mem_cons.1 hx with rfl | hx2
         · rw [strip_idem]
         · exact ih _ x hx2)
/-- Every element of the merge output except the last has length at
least the minimum, provided the tokenizer sentences are nonempty and
stripped. -/
theorem merge_min (m : Nat) :
    ∀ (l : List (List Char)),
      (∀ s ∈ l, s ≠ [] ∧ pyStrip s = s) →
      ∀ (temp : List Char), CarryOK temp →
      ∀ x ∈ (mergeSentences m l temp).dropLast, m ≤ x.length := by
  intro l
  induction l with
  | nil =>
    intro _ temp _ x hx
    rw [mergeSentences] at hx
    split at hx <;> simp at hx
  | cons s rest ih =>
    intro hl temp ht x hx
    obtain ⟨hne, hstr⟩ := hl s (List.mem_cons_self s rest)
    have hrest : ∀ t ∈ rest, t ≠ [] ∧ pyStrip t = t :=
      fun t h2 => hl t (List.mem_cons_of_mem _ h2)
    rw [mergeSentences] at hx
    split at hx
    · -- short sentence: goes into the carry
      refine ih hrest (temp ++ s ++ [' ']) ?_ x hx
      rw [List.append_assoc]
      apply carryOK_append ht
      intro _
      obtain ⟨c, hc, hcs⟩ := stripped_nonempty_head hne hstr
      refine ⟨c, ?_, hcs⟩
      rw [List.head?_append, hc]
      rfl
    · rename_i hlong
      have hslen : m ≤ s.length := by omega
      split at hx
      · -- empty carry: the stripped sentence is appended as-is
        rename_i htemp
        cases hM : mergeSentences m rest [] with
        | nil =>
          rw [hM] at hx
          simp at hx
        | cons y ys =>
          rw [hM, List.dropLast_cons_of_ne_nil (by simp)] at hx
          rcases List.mem_cons.1 hx with rfl | hx2
          · rw [hstr]
            exact hslen
          · exact ih hrest [] (Or.inl rfl) x (by rw [hM]; exact hx2)
      · -- nonempty carry absorbed into the sentence
        rename_i htemp
        cases hM : mergeSentences m rest [] with
        | nil =>
          rw [hM] at hx
          simp at hx
        | cons y ys =>
          rw [hM, List.dropLast_cons_of_ne_nil (by simp)] at hx
          rcases List.mem_cons.1 hx with rfl | hx2
          · rw [strip_carry_append ht hne hstr]
            have := List.length_append temp s
            omega
          · exact ih hrest [] (Or.inl rfl) x (by rw [hM]; exact hx2)
/-- Every non-final flush emission has at least the minimum length,
provided the tokenizer sentences are nonempty and stripped and the
sanitization options are off. -/
theorem flushLoop_min {cfg : SplitterConfig}
    (hl : cfg.cleanupTextLinks = false) (he : cfg.cleanupTextEmojis = false) :
    ∀ (l : List (List Char)),
      (∀ s ∈ l, s ≠ [] ∧ pyStrip s = s) →
      ∀ (sb : List Char), CarryOK sb →
      ∀ e ∈ flushLoop cfg l sb, e.kind = .flushMid →
        cfg.minimumSentenceLength ≤ e.text.length := by
  intro l
  induction l with
  | nil =>
    intro _ sb _ e he2 hk
    rw [flushLoop] at he2
    split at he2
    · simp at he2
    · rw [List.mem_singleton] at he2
      rw [he2] at hk
      simp at hk
  | cons s rest ih =>
    intro hsent sb hsb e he2 hk
    obtain ⟨hne, hstr⟩ := hsent s (List.mem_cons_self s rest)
    have hrest : ∀ t ∈ rest, t ≠ [] ∧ pyStrip t = t :=
      fun t h2 => hsent t (List.mem_cons_of_mem _ h2)
    rw [flushLoop] at he2
    split at he2
    · -- still below the minimum: accumulate with a separating space
      refine ih hrest (sb ++ s ++ [' ']) ?_ e he2 hk
      rw [List.append_assoc]
      apply carryOK_append hsb
      intro _
      obtain ⟨c, hc, hcs⟩ := stripped_nonempty_head hne hstr
      refine ⟨c, ?_, hcs⟩
      rw [List.head?_append, hc]
      rfl
    · rename_i hlen
      rcases List.mem_cons.1 he2 with rfl | he3
      · show cfg.minimumSentenceLength ≤ (cleanSplitter cfg (sb ++ s)).length
        rw [cleanSplitter_off hl he, strip_carry_append hsb hne hstr]
        omega
      · exact ih hrest [] (Or.inl rfl) e he3 hk
/-- Every commit-path emission of one character step has at least the
minimum length. -/
theorem processChar_min (tok : List Char → List (List Char))
    (st : SplitterState) (c : Char)
    (hl : st.cfg.cleanupTextLinks = false)
    (he : st.cfg.cleanupTextEmojis = false)
    (htok : ∀ t, ∀ s ∈ tok t, s ≠ [] ∧ pyStrip s = s) :
    ∀ e ∈ (processChar tok st c).emissions, e.kind = .commit →
      st.cfg.minimumSentenceLength ≤ e.text.length := by
  intro e he2 hk
  simp only [processChar] at he2
  split at he2
  · simp at he2
  · split at he2
    · rw [List.mem_singleton] at he2
      rw [he2] at hk
      simp at hk
    · split at he2
      · simp at he2
      · split at he2
        · split at he2
          · split at he2
            · -- the commit branch
              obtain ⟨x, hx, hxe⟩ := List.mem_map.1 he2
              have hx2 : x ∈ mergedAfter tok st c := List.dropLast_subset _ hx
              have hmin := merge_min st.cfg.minimumSentenceLength
                (tok (bufAfter st c)) (htok _) [] (Or.inl rfl) x hx
              have hstr := merge_stripped st.cfg.minimumSentenceLength
                (tok (bufAfter st c)) [] x hx2
              rw [← hxe]
              show st.cfg.minimumSentenceLength ≤ (cleanSplitter st.cfg x).length
              rw [cleanSplitter_off hl he, hstr]
              exact hmin
            · simp at he2
          · simp at he2
        · simp at he2
theorem processChunk_min (tok : List Char → List (List Char))
    (htok : ∀ t, ∀ s ∈ tok t, s ≠ [] ∧ pyStrip s = s) :
    ∀ (chunk : List Char) (st : SplitterState),
      st.cfg.cleanupTextLinks = false →
      st.cfg.cleanupTextEmojis = false →
      ∀ e ∈ (processChunk tok st chunk).emissions, e.kind = .commit →
        st.cfg.minimumSentenceLength ≤ e.text.length := by
  intro chunk
  induction chunk with
  | nil =>
    intro st _ _ e he2 _
    simp [processChunk] at he2
  | cons c cs ih =>
    intro st hl he e he2 hk
    rw [processChunk] at he2
    simp only [] at he2
    have hcfg := processChar_cfg tok st c
    rcases List.mem_append.1 he2 with h1 | h2
    · exact processChar_min tok st c hl he htok e h1 hk
    · have := ih (processChar tok st c).state
        (by rw [hcfg]; exact hl) (by rw [hcfg]; exact he) e h2 hk
      rwa [hcfg] at this
theorem streamChunks_min (tok : List Char → List (List Char))
    (htok : ∀ t, ∀ s ∈ tok t, s ≠ [] ∧ pyStrip s = s) :
    ∀ (chunks : List (List Char)) (st : SplitterState),
      st.cfg.cleanupTextLinks = false →
      st.cfg.cleanupTextEmojis = false →
      ∀ e ∈ (streamChunks tok st chunks).emissions, e.kind = .commit →
        st.cfg.minimumSentenceLength ≤ e.text.length := by
  intro chunks
  induction chunks with
  | nil =>
    intro st _ _ e he2 _
    simp [streamChunks] at he2
  | cons ch rest ih =>
    intro st hl he e he2 hk
    rw [streamChunks] at he2
    simp only [] at he2
    have hcfg := processChunk_cfg tok ch st
    rcases List.mem_append.1 he2 with h1 | h2
    · exact processChunk_min tok htok ch st hl he e h1 hk
    · have := ih (processChunk tok st ch).state
        (by rw [hcfg]; exact hl) (by rw [hcfg]; exact he) e h2 hk
      rwa [hcfg] at this
theorem runFrags_min (tok : List Char → List (List Char))
    (htok : ∀ t, ∀ s ∈ tok t, s ≠ [] ∧ pyStrip s = s) :
    ∀ (frags : List (List Char)) (st : SplitterState),
      st.cfg.cleanupTextLinks = false →
      st.cfg.cleanupTextEmojis = false →
      ∀ e ∈ (runFrags tok st frags).emissions, e.kind = .commit →
        st.cfg.minimumSentenceLength ≤ e.text.length := by
  intro frags
  induction frags with
  | nil =>
    intro st _ _ e he2 _
    simp [runFrags] at he2
  | cons f rest ih =>
    intro st hl he e he2 hk
    rw [runFrags] at he2
    simp only [] at he2
    have hcfg := streamRun_cfg tok (addChunk st f)
    rcases List.mem_append.1 he2 with h1 | h2
    · rw [streamRun] at h1
      exact streamChunks_min tok htok (addChunk st f).inputBuffer
        { addChunk st f with inputBuffer := [] } hl he e h1 hk
    · have := ih (streamRun tok (addChunk st f)).state
        (by rw [hcfg]; exact hl) (by rw [hcfg]; exact he) e h2 hk
      rwa [hcfg] at this
/-- The streaming loop only emits quick-yield or commit kinds. -/
theorem processChar_kinds (tok : List Char → List (List Char))
    (st : SplitterState) (c : Char) :
    ∀ e ∈ (processChar tok st c).emissions,
      e.kind = .quickYield ∨ e.kind = .commit := by
  intro e he2
  simp only [processChar] at he2
  split at he2
  · simp at he2
  · split at he2
    · rw [List.mem_singleton] at he2
      rw [he2]
      exact Or.inl rfl
    · split at he2
      · simp at he2
      · split at he2
        · split at he2
          · split at he2
            · obtain ⟨x, _, hxe⟩ := List.mem_map.1 he2
              rw [← hxe]
              exact Or.inr rfl
            · simp at he2
          · simp at he2
        · simp at he2
theorem processChunk_kinds (tok : List Char → List (List Char)) :
    ∀ (chunk : List Char) (st : SplitterState),
      ∀ e ∈ (processChunk tok st chunk).emissions,
        e.kind = .quickYield ∨ e.kind = .commit := by
  intro chunk
  induction chunk with
  | nil =>
    intro st e he2
    simp [processChunk] at he2
  | cons c cs ih =>
    intro st e he2
    rw [processChunk] at he2
    simp only [] at he2
    rcases List.mem_append.1 he2 with h1 | h2
    · exact processChar_kinds tok st c e h1
    · exact ih _ e h2
theorem streamChunks_kinds (tok : List Char → List (List Char)) :
    ∀ (chunks : List (List Char)) (st : SplitterState),
      ∀ e ∈ (streamChunks tok st chunks).emissions,
        e.kind = .quickYield ∨ e.kind = .commit := by
  intro chunks
  induction chunks with
  | nil =>
    intro st e he2
    simp [streamChunks] at he2
  | cons ch rest ih =>
    intro st e he2
    rw [streamChunks] at he2
    simp only [] at he2
    rcases List.mem_append.1 he2 with h1 | h2
    · exact processChunk_kinds tok ch st e h1
    · exact ih _ e h2
theorem runFrags_kinds (tok : List Char → List (List Char)) :
    ∀ (frags : List (List Char)) (st : SplitterState),
      ∀ e ∈ (runFrags tok st frags).emissions,
        e.kind = .quickYield ∨ e.kind = .commit := by
  intro frags
  induction frags with
  | nil =>
    intro st e he2
    simp [runFrags] at he2
  | cons f rest ih =>
    intro st e he2
    rw [runFrags] at he2
    simp only [] at he2
    rcases List.mem_append.1 he2 with h1 | h2
    · rw [streamRun] at h1
      exact streamChunks_kinds tok _ _ e h1
    · exact ih _ e h2
/-- The flush loop only emits flush kinds. -/
theorem flushLoop_kinds (cfg : SplitterConfig) :
    ∀ (l : List (List Char)) (sb : List Char),
      ∀ e ∈ flushLoop cfg l sb,
        e.kind = .flushMid ∨ e.kind = .flushFinal := by
  intro l
  induction l with
  | nil =>
    intro sb e he2
    rw [flushLoop] at he2
    split at he2
    · simp at he2
    · rw [List.mem_singleton] at he2
      rw [he2]
      exact Or.inr rfl
  | cons x r ih =>
    intro sb e he2
    rw [flushLoop] at he2
    split at he2
    · exact ih _ e he2
    · rcases List.mem_cons.1 he2 with rfl | hmore
      · exact Or.inl rfl
      · exact ih _ e hmore
/-- C2 (counterexample): with link cleanup enabled, a commit-path
sentence (neither the final flushed remainder nor a quick-yield
fragment) is emitted whose sanitized length is below
`minimum_sentence_length`: removing the URL shrinks
`"See http://ab x."` to `"See  x."`, seven characters against a minimum
of ten. -/
theorem min_length_violated_by_link_cleanup :
    ∃ e ∈ runSplitter splitTok
        { cfgSmallCtx with cleanupTextLinks := true }
        ["See http://ab x. Second sentence words here.".data],
      e.kind = .commit ∧
        e.text.length <
          ({ cfgSmallCtx with cleanupTextLinks := true} :
            SplitterConfig).minimumSentenceLength := by
  decide
/-- C2 (amended): with link and emoji cleanup disabled (sanitization
reduced to whitespace trimming) and a tokenizer returning nonempty
whitespace-stripped sentences, every emitted sentence other than the
final flushed remainder and the quick-yield fragments — that is, every
commit-path emission and every non-final flush emission — has length at
least `minimum_sentence_length`; short sentences are merged forward
before emission. -/
theorem min_length_respected (tok : List Char → List (List Char))
    (cfg : SplitterConfig) (frags : List (List Char))
    (hl : cfg.cleanupTextLinks = false)
    (he : cfg.cleanupTextEmojis = false)
    (htok : ∀ t, ∀ s ∈ tok t, s ≠ [] ∧ pyStrip s = s) :
    ∀ e ∈ runSplitter tok cfg frags, e.kind = .commit ∨ e.kind = .flushMid →
      cfg.minimumSentenceLength ≤ e.text.length := by
  intro e he2 hk
  have hcfg : (runSplitterResult tok cfg frags).state.cfg =
      applyQuickYieldCascade cfg := by
    rw [runSplitterResult, runFrags_cfg]
    rfl
  have hcmin : (applyQuickYieldCascade cfg).minimumSentenceLength =
      cfg.minimumSentenceLength := rfl
  have hcl : (applyQuickYieldCascade cfg).cleanupTextLinks = false := hl
  have hce : (applyQuickYieldCascade cfg).cleanupTextEmojis = false := he
  rw [runSplitter] at he2
  rcases List.mem_append.1 he2 with h1 | h2
  · -- a streaming emission: quick-yield is excluded by its kind, so it
    -- came through the commit path
    rcases hk with hk | hk
    · have := runFrags_min tok htok frags (initState cfg) hcl hce e h1 hk
      exact this
    · -- flushMid kinds are never produced by the streaming loop
      exfalso
      rcases runFrags_kinds tok frags (initState cfg) e h1 with hq2 | hq2 <;>
        (rw [hk] at hq2; simp at hq2)
  · -- a flush emission
    rw [flushEmissions] at h2
    split at h2
    · simp at h2
    · rcases hk with hk | hk
      · -- commit kinds are never produced by flush
        exfalso
        rcases flushLoop_kinds (runSplitterResult tok cfg frags).state.cfg
            (tok (runSplitterResult tok cfg frags).state.buffer) [] e h2 with
          hq2 | hq2 <;> (rw [hk] at hq2; simp at hq2)
      · have := @flushLoop_min (runSplitterResult tok cfg frags).state.cfg
          (by rw [hcfg]; exact hcl) (by rw [hcfg]; exact hce)
          (tok (runSplitterResult tok cfg frags).state.buffer)
          (htok _) [] (Or.inl rfl) e h2 hk
        rw [hcfg, hcmin] at this
        exact this
/-- C2 (witness): the amended minimum-length theorem applied to a
concrete run whose flush emits one long sentence. -/
theorem min_length_respected_witness :
    (⟨.flushMid, "Hello there. How are you.".data⟩ : Emission) ∈
        runSplitter wholeTok cfgDefault ["Hello there. How are you.".data] ∧
      cfgDefault.minimumSentenceLength ≤
        ("Hello there. How are you.".data).length :=
  ⟨by decide,
    min_length_respected wholeTok cfgDefault ["Hello there. How are you.".data]
      rfl rfl
      (fun t s hs => by
        rw [wholeTok] at hs
        split at hs
        · simp at hs
        · rename_i hne
          rw [List.mem_singleton] at hs
          subst hs
          exact ⟨hne, strip_idem t⟩)
      ⟨.flushMid, "Hello there. How are you.".data⟩ (by decide) (Or.inr rfl)⟩

/-! ### Tokenizer selection, the process-wide global, and the adapters

`current_tokenizer` (line 24) is a module-level global.
`SentenceSplitter.__init__` (lines 449-451) overwrites it with the
instance's `tokenizer` argument and calls `init_tokenizer`, which logs a
warning for unknown names (lines 184-193).  `_tokenize_sentences`
(lines 151-181) uses a custom tokenize callable if one was supplied,
otherwise dispatches on the GLOBAL name — raising `ValueError` for an
unknown name at use time.  The built-in tokenizers are external
libraries and enter the model as the parameters of `TokEnv`. -/
/-- C4: a tokenizer name that is not one of the built-in choices (with
no custom tokenize function supplied) is reported at construction —
`init_tokenizer` emits its unknown-tokenizer warning before any
fragment is processed — and is never silently defaulted: the unknown
name is kept, no built-in is resolved for it, and any later attempt to
tokenize with it raises instead of falling back. -/
theorem unknown_tokenizer_reported (cfg : SplitterConfig) (g : GlobalState)
    (h1 : cfg.tokenizerName ≠ "nltk") (h2 : cfg.tokenizerName ≠ "stanza") :
    (constructSplitter cfg g).2.2 =
        InitReport.unknownTokenizerWarning cfg.tokenizerName ∧
      (constructSplitter cfg g).2.1.currentTokenizer = cfg.tokenizerName ∧
      (∀ env, resolveBuiltin env cfg.tokenizerName = none) ∧
      (∀ env, dispatchTokenize env none (constructSplitter cfg g).2.1 =
        Except.error ("Unknown tokenizer: " ++ cfg.tokenizerName)) := by
  refine ⟨?_, rfl, fun env => ?_, fun env => ?_⟩
  · show initTokenizerReport cfg.tokenizerName = _
    rw [initTokenizerReport, if_neg h1, if_neg h2]
  · rw [resolveBuiltin, if_neg h1, if_neg h2]
  · show dispatchTokenize env none ⟨cfg.tokenizerName⟩ = _
    rw [dispatchTokenize]
    simp only [resolveBuiltin, if_neg h1, if_neg h2]
/-- C4 (witness): the unknown-name behaviour at the concrete name
`"foo"`. -/
theorem unknown_tokenizer_reported_witness :
    (constructSplitter { cfgDefault with tokenizerName := "foo" }
        ⟨"nltk"⟩).2.2 = InitReport.unknownTokenizerWarning "foo" ∧
      dispatchTokenize ⟨wholeTok, splitTok⟩ none
          (constructSplitter { cfgDefault with tokenizerName := "foo" }
            ⟨"nltk"⟩).2.1 =
        Except.error "Unknown tokenizer: foo" :=
  ⟨(unknown_tokenizer_reported { cfgDefault with tokenizerName := "foo" }
      ⟨"nltk"⟩ (by decide) (by decide)).1,
    (unknown_tokenizer_reported { cfgDefault with tokenizerName := "foo" }
      ⟨"nltk"⟩ (by decide) (by decide)).2.2.2 ⟨wholeTok, splitTok⟩⟩

/-! ### Claim C7: determinism -/
/-- C7: feeding the same fragment sequence through two freshly
constructed splitters with identical configuration (and the same
deterministic external tokenizers) yields identical output sentence
sequences: construction overwrites the process-wide tokenizer global,
so the output does not depend on the global state left behind by any
earlier run. -/
theorem determinism (env : TokEnv)
    (custom : Option (List Char → List (List Char)))
    (cfg : SplitterConfig) (g0 g1 : GlobalState)
    (frags : List (List Char)) :
    (runWithGlobal env custom cfg g0 frags).1 =
      (runWithGlobal env custom cfg g1 frags).1 := rfl

/-! ### Claim C9: configuration and the tokenizer global -/
/-- C9 (counterexample): which sentence tokenizer a splitter instance
uses is NOT fixed at its construction.  A splitter constructed with
tokenizer `"nltk"` tokenizes through the process-wide global; after a
second splitter is constructed with tokenizer `"stanza"`, the first
instance's run uses the stanza tokenizer and produces different
output. -/
theorem tokenizer_not_fixed_at_construction :
    runConstructed envTwoTok none
        (constructSplitter { cfgDefault with tokenizerName := "stanza" }
          (constructSplitter cfgDefault ⟨"nltk"⟩).2.1).2.1
        cfgDefault ["Hello there. How are you.".data] ≠
      runConstructed envTwoTok none
        (constructSplitter cfgDefault ⟨"nltk"⟩).2.1
        cfgDefault ["Hello there. How are you.".data] := by
  decide
/-- C9 (amended): the per-instance configuration attributes are fixed at
construction and never mutated by `stream`/`flush`; but the built-in
sentence tokenizer is resolved through the process-wide global
`current_tokenizer`, which every construction overwrites with its own
name regardless of the previous global state — so a later construction
with a different tokenizer name changes which tokenizer an earlier
instance uses. -/
theorem config_fixed_except_global_tokenizer :
    (∀ (tok : List Char → List (List Char)) (cfg : SplitterConfig)
        (frags : List (List Char)),
      (runSplitterResult tok cfg frags).state.cfg = (initState cfg).cfg) ∧
    (∀ (cfg : SplitterConfig) (g : GlobalState),
      (constructSplitter cfg g).2.1 = ⟨cfg.tokenizerName⟩) := by
  constructor
  · intro tok cfg frags
    rw [runSplitterResult, runFrags_cfg]
  · intro cfg g
    rfl

/-! ### Claim C8: the synchronous adapter -/
theorem syncRunAux_ok (tok : List Char → List (List Char)) :
    ∀ (source : List (Nat × List Char)), (∀ x ∈ source, x.1 = 0) →
      ∀ (st : SplitterState) (acc : List Emission),
        syncRunAux tok st acc source =
          (acc ++ ((runFrags tok st (source.map Prod.snd)).emissions ++
            flushEmissions tok (runFrags tok st (source.map Prod.snd)).state),
            false) := by
  intro source
  induction source with
  | nil =>
    intro _ st acc
    simp [syncRunAux, runFrags]
  | cons x rest ih =>
    intro hz st acc
    obtain ⟨k, frag⟩ := x
    have hk : k = 0 := hz (k, frag) (List.mem_cons_self _ _)
    subst hk
    rw [syncRunAux, if_neg (by simp)]
    rw [ih (fun y hy => hz y (List.mem_cons_of_mem _ hy))]
    rw [List.map_cons, runFrags]
    simp [List.append_assoc]
theorem syncRunAux_err (tok : List Char → List (List Char)) :
    ∀ (source : List (Nat × List Char)), (∃ x ∈ source, x.1 ≠ 0) →
      ∀ (st : SplitterState) (acc : List Emission),
        (syncRunAux tok st acc source).2 = true := by
  intro source
  induction source with
  | nil =>
    intro h
    simp at h
  | cons x rest ih =>
    intro h st acc
    obtain ⟨k, frag⟩ := x
    by_cases hk : k = 0
    · subst hk
      rw [syncRunAux, if_neg (by simp)]
      apply ih
      obtain ⟨y, hy, hy0⟩ := h
      rcases List.mem_cons.1 hy with rfl | hy2
      · simp at hy0
      · exact ⟨y, hy2, hy0⟩
    · rw [syncRunAux, if_pos (by simpa using hk)]
/-- C8: for a fragment source that never genuinely suspends, the
synchronous entry point yields exactly the sentence sequence of the
asynchronous engine on the same input; and if the source does suspend,
the synchronous layer aborts with the fatal `RuntimeError` rather than
recovering. -/
theorem sync_matches_async (tok : List Char → List (List Char))
    (cfg : SplitterConfig) (source : List (Nat × List Char)) :
    ((∀ x ∈ source, x.1 = 0) →
      syncRun tok cfg source = (asyncRun tok cfg source, false)) ∧
    ((∃ x ∈ source, x.1 ≠ 0) → (syncRun tok cfg source).2 = true) := by
  constructor
  · intro hz
    rw [syncRun, syncRunAux_ok tok source hz, asyncRun, runSplitter,
      runSplitterResult]
    rfl
  · intro hs
    rw [syncRun]
    exact syncRunAux_err tok source hs _ _
/-- C8 (witness): agreement on a concrete non-suspending source, and the
fatal error on a concrete suspending one. -/
theorem sync_matches_async_witness :
    syncRun splitTok cfgDefault [(0, "Hello there. ".data), (0, "How are you. ".data)] =
        (asyncRun splitTok cfgDefault
          [(0, "Hello there. ".data), (0, "How are you. ".data)], false) ∧
      (syncRun splitTok cfgDefault [(0, "Hello there. ".data), (1, "boom".data)]).2 =
        true :=
  ⟨(sync_matches_async splitTok cfgDefault _).1 (by decide),
    (sync_matches_async splitTok cfgDefault _).2 ⟨(1, "boom".data), by decide, by decide⟩⟩

/-! ### Claim C3: the quick-yield word cap

Word counting: the number of whitespace-delimited words of a string is
the number of maximal runs of non-whitespace characters.  The flag
records whether the scan is inside a word. -/
theorem wordsCountAux_nil (bflag : Bool) : wordsCountAux bflag [] = 0 := by
  cases bflag <;> rfl
theorem wordsCountAux_false_cons (c : Char) (rest : List Char) :
    wordsCountAux false (c :: rest) =
      if pyIsSpace c = true then wordsCountAux false rest
      else wordsCountAux true rest + 1 := rfl
theorem wordsCountAux_true_cons (c : Char) (rest : List Char) :
    wordsCountAux true (c :: rest) =
      if pyIsSpace c = true then wordsCountAux false rest
      else wordsCountAux true rest := rfl
theorem wordsCountAux_true_le (l : List Char) :
    wordsCountAux true l ≤ wordsCountAux false l := by
  cases l with
  | nil => exact le_rfl
  | cons c rest =>
    rw [wordsCountAux_true_cons, wordsCountAux_false_cons]
    split
    · exact le_rfl
    · omega
/-- General bound: at most one word per whitespace character, plus one
for a leading word. -/
theorem wordsCountAux_le_countP (l : List Char) :
    wordsCountAux false l ≤ l.countP pyIsSpace + 1 ∧
      wordsCountAux true l ≤ l.countP pyIsSpace := by
  induction l with
  | nil => simp [wordsCountAux_nil]
  | cons c rest ih =>
    obtain ⟨ih1, ih2⟩ := ih
    rw [wordsCountAux_false_cons, wordsCountAux_true_cons, List.countP_cons]
    by_cases hc : pyIsSpace c = true
    · simp [hc]
      omega
    · simp [hc]
      omega
/-- Sharper bound for strings ending in whitespace: at most one word per
whitespace character. -/
theorem wordsCountAux_ends_space (d : Char) (hd : pyIsSpace d = true) :
    ∀ (q : List Char),
      wordsCountAux false (q ++ [d]) ≤ (q ++ [d]).countP pyIsSpace ∧
        wordsCountAux true (q ++ [d]) + 1 ≤ (q ++ [d]).countP pyIsSpace := by
  intro q
  induction q with
  | nil =>
    rw [List.nil_append, wordsCountAux_false_cons, wordsCountAux_true_cons,
      List.countP_cons]
    rw [if_pos hd, if_pos hd, hd]
    simp [wordsCountAux_nil]
  | cons c rest ih =>
    obtain ⟨ih1, ih2⟩ := ih
    obtain ⟨hb1, hb2⟩ := wordsCountAux_le_countP (rest ++ [d])
    rw [List.cons_append, wordsCountAux_false_cons, wordsCountAux_true_cons,
      List.countP_cons]
    simp only [List.countP_append] at ih1 ih2 hb1 hb2 ⊢
    by_cases hc : pyIsSpace c = true
    · simp [hc, hd] at ih1 ih2 hb1 hb2 ⊢
      omega
    · simp [hc, hd] at ih1 ih2 hb1 hb2 ⊢
      omega
/-- Subadditivity of word counting under concatenation. -/
theorem wordsCountAux_append_le (b : List Char) :
    ∀ (a : List Char),
      wordsCountAux false (a ++ b) ≤
          wordsCountAux false a + wordsCountAux false b ∧
        wordsCountAux true (a ++ b) ≤
          wordsCountAux true a + wordsCountAux false b := by
  intro a
  induction a with
  | nil =>
    rw [List.nil_append, wordsCountAux_nil, wordsCountAux_nil]
    exact ⟨by omega, by simpa using wordsCountAux_true_le b⟩
  | cons c rest ih =>
    obtain ⟨ih1, ih2⟩ := ih
    rw [List.cons_append, wordsCountAux_false_cons, wordsCountAux_true_cons,
      wordsCountAux_false_cons c rest, wordsCountAux_true_cons c rest]
    by_cases hc : pyIsSpace c = true
    · simp [hc]
      omega
    · simp [hc]
      omega
theorem wordsCount_append_le (a b : List Char) :
    wordsCount (a ++ b) ≤ wordsCount a + wordsCount b :=
  (wordsCountAux_append_le b a).1
/-- Whitespace-only strings contain no words. -/
theorem wordsCountAux_all_spaces :
    ∀ {m : List Char}, (∀ c ∈ m, pyIsSpace c = true) →
      ∀ (bflag : Bool), wordsCountAux bflag m = 0 := by
  intro m
  induction m with
  | nil =>
    intro _ bflag
    exact wordsCountAux_nil bflag
  | cons c rest ih =>
    intro hm bflag
    have hc := hm c (List.mem_cons_self c rest)
    cases bflag with
    | true =>
      rw [wordsCountAux_true_cons, if_pos hc]
      exact ih (fun d hd => hm d (List.mem_cons_of_mem _ hd)) false
    | false =>
      rw [wordsCountAux_false_cons, if_pos hc]
      exact ih (fun d hd => hm d (List.mem_cons_of_mem _ hd)) false
/-- Appending whitespace does not change the word count. -/
theorem wordsCountAux_append_spaces {m : List Char}
    (hm : ∀ c ∈ m, pyIsSpace c = true) :
    ∀ (a : List Char) (bflag : Bool),
      wordsCountAux bflag (a ++ m) = wordsCountAux bflag a := by
  intro a
  induction a with
  | nil =>
    intro bflag
    rw [List.nil_append, wordsCountAux_all_spaces hm bflag, wordsCountAux_nil]
  | cons c rest ih =>
    intro bflag
    cases bflag with
    | true =>
      rw [List.cons_append, wordsCountAux_true_cons, wordsCountAux_true_cons]
      split
      · exact ih false
      · exact ih true
    | false =>
      rw [List.cons_append, wordsCountAux_false_cons, wordsCountAux_false_cons]
      split
      · exact ih false
      · rw [ih true]
theorem wordsCount_lstrip (l : List Char) :
    wordsCount (pyLStrip l) = wordsCount l := by
  rw [wordsCount, wordsCount]
  induction l with
  | nil => rfl
  | cons c rest ih =>
    cases hc : pyIsSpace c with
    | true =>
      rw [pyLStrip, List.dropWhile_cons, if_pos hc, wordsCountAux_false_cons,
        if_pos hc]
      exact ih
    | false =>
      rw [pyLStrip, List.dropWhile_cons, if_neg (by simp [hc])]
/-- Right-stripping does not change the word count. -/
theorem wordsCount_rstrip (l : List Char) :
    wordsCount (pyRStrip l) = wordsCount l := by
  have hdecomp : l = pyRStrip l ++ (l.reverse.takeWhile pyIsSpace).reverse := by
    rw [pyRStrip, ← List.reverse_append, List.takeWhile_append_dropWhile,
      List.reverse_reverse]
  rw [wordsCount, wordsCount]
  conv_rhs => rw [hdecomp]
  rw [wordsCountAux_append_spaces]
  intro c hc
  rw [List.mem_reverse] at hc
  exact List.mem_takeWhile_imp hc
theorem wordsCount_strip (l : List Char) :
    wordsCount (pyStrip l) = wordsCount l := by
  rw [pyStrip, wordsCount_rstrip, wordsCount_lstrip]
theorem space_is_space : pyIsSpace ' ' = true := rfl
theorem count_append_space (p : List Char) :
    (p ++ [' ']).count ' ' = p.count ' ' + 1 := by
  simp
theorem count_append_nonspace (p : List Char) {c : Char} (h : c ≠ ' ') :
    (p ++ [c]).count ' ' = p.count ' ' := by
  rw [List.count_append, List.count_singleton, if_neg (by simp [h])]
  omega
/-- The second `lstrip` of the buffer update is absorbed: stripping the
already left-stripped buffer extended by one character equals stripping
the whole extended prefix. -/
theorem lstrip_absorb (p : List Char) (c : Char) :
    pyLStrip (pyLStrip p ++ [c]) = pyLStrip (p ++ [c]) := by
  induction p with
  | nil => rfl
  | cons d rest ih =>
    by_cases hd : pyIsSpace d = true
    · have h1 : pyLStrip (d :: rest) = pyLStrip rest := by
        rw [pyLStrip, pyLStrip, List.dropWhile_cons, if_pos hd]
      have h2 : pyLStrip ((d :: rest) ++ [c]) = pyLStrip (rest ++ [c]) := by
        rw [List.cons_append, pyLStrip, pyLStrip, List.dropWhile_cons, if_pos hd]
      rw [h1, h2]
      exact ih
    · have h1 : pyLStrip (d :: rest) = d :: rest := by
        rw [pyLStrip, List.dropWhile_cons, if_neg hd]
      rw [h1]
/-- A nonempty suffix shares the last element. -/
theorem getLast?_of_suffix {s t : List Char} (h : s <:+ t) (hne : s ≠ []) :
    s.getLast? = t.getLast? := by
  obtain ⟨u, rfl⟩ := h
  rw [List.getLast?_append]
  cases hs : s.getLast? with
  | none => exact absurd (List.getLast?_eq_none_iff.1 hs) hne
  | some d => rfl
/-- The merge pass returns at most one more element than its input list
(the extra one being the leftover carry). -/
theorem merge_length_le (m : Nat) :
    ∀ (l : List (List Char)) (temp : List Char),
      (mergeSentences m l temp).length ≤
        l.length + (if temp = [] then 0 else 1) := by
  intro l
  induction l with
  | nil =>
    intro temp
    rw [mergeSentences]
    split
    · rename_i h
      simp [h]
    · rename_i h
      simp [h]
  | cons s rest ih =>
    intro temp
    rw [mergeSentences]
    split
    · have := ih (temp ++ s ++ [' '])
      rw [if_neg (by simp)] at this
      have h2 : (if temp = [] then 0 else 1) ≤ 1 := by
        split
        · omega
        · omega
      simp at this ⊢
      omega
    · split
      · have := ih []
        rw [if_pos rfl] at this
        simp at this ⊢
        omega
      · have := ih []
        rw [if_pos rfl] at this
        simp at this ⊢
        omega
/-- One character step of a quick-yield-armed splitter on delimiter-free
input: either nothing is emitted and the invariant advances, or the
character is the forcing space and the (stripped) buffer is emitted as
the first quick-yield fragment. -/
theorem processChar_qy (tok : List Char → List (List Char))
    (cfg2 : SplitterConfig) (st : SplitterState) (p : List Char) (c : Char)
    (hsingle : cfg2.quickYieldSingleSentenceFragment = true)
    (hfilter : cfg2.filterFirstNonAlnumCharacters = false)
    (hspf : ' ' ∉ cfg2.sentenceFragmentDelimiters)
    (hspd : ' ' ∉ cfg2.fullSentenceDelimiters)
    (htok2 : ∀ t, (tok t).length ≤ 2)
    (hInv : QYInv cfg2 p st)
    (hc : c = ' ' ∨ (pyIsSpace c = false ∧
      c ∉ cfg2.sentenceFragmentDelimiters ∧ c ∉ cfg2.fullSentenceDelimiters))
    (hbufc : c = ' ' →
      (p ++ [c]).count ' ' = cfg2.forceFirstFragmentAfterWords →
      cfg2.minimumFirstFragmentLength < (pyLStrip (p ++ [c])).length) :
    ((processChar tok st c).emissions = [] ∧
      QYInv cfg2 (p ++ [c]) (processChar tok st c).state) ∨
    ((processChar tok st c).emissions =
        [⟨.quickYield, cleanSplitter cfg2 (pyLStrip (p ++ [c]))⟩] ∧
      c = ' ' ∧
      (p ++ [c]).count ' ' = cfg2.forceFirstFragmentAfterWords) := by
  obtain ⟨hcfg, hbuf, hwc, hfirst, hldp, hcount⟩ := hInv
  have hcsp : c ≠ ' ' → pyIsSpace c = false := by
    intro hne
    rcases hc with rfl | ⟨h1, _⟩
    · exact absurd rfl hne
    · exact h1
  have hbufA : bufAfter st c = pyLStrip (p ++ [c]) := by
    rw [bufAfter, hbuf, lstrip_absorb]
  have hwcA : wcAfter st c = (p ++ [c]).count ' ' := by
    rw [wcAfter]
    by_cases hce : c = ' '
    · subst hce
      rw [if_pos (Or.inl space_is_space), hwc, count_append_space]
    · rcases hc with rfl | ⟨h1, h2, _⟩
      · exact absurd rfl hce
      · rw [if_neg (by rw [hcfg]; simp [h1, h2]), hwc,
          count_append_nonspace p hce]
  have hnofrag : lastIsFragDelim st.cfg (bufAfter st c) = false := by
    rw [lastIsFragDelim, hbufA]
    cases hlast : (pyLStrip (p ++ [c])).getLast? with
    | none => rfl
    | some d =>
      have hsuf : pyLStrip (p ++ [c]) <:+ p ++ [c] := List.dropWhile_suffix _
      have hdc : d = c := by
        have hne : pyLStrip (p ++ [c]) ≠ [] := by
          intro hnil
          rw [hnil] at hlast
          simp at hlast
        have := getLast?_of_suffix hsuf hne
        rw [hlast, List.getLast?_append] at this
        simp at this
        exact this
      subst hdc
      rcases hc with rfl | ⟨_, h2, _⟩
      · rw [hcfg]
        simp [hspf]
      · rw [hcfg]
        simp [h2]
  have hldpA : ldpAfter st c = -1 := by
    rw [ldpAfter, hcfg, if_neg ?_, hldp]
    rcases hc with rfl | ⟨_, _, h3⟩
    · exact hspd
    · exact h3
  have hfic : ¬(st.buffer.length = 0 ∧
      st.cfg.filterFirstNonAlnumCharacters = true ∧ pyIsAlnum c = false) := by
    rw [hcfg, hfilter]
    simp
  have hmerge : ¬(2 < (mergedAfter tok st c).length) := by
    rw [mergedAfter]
    have h1 := merge_length_le st.cfg.minimumSentenceLength
      (tok (bufAfter st c)) []
    rw [if_pos rfl] at h1
    have h2 := htok2 (bufAfter st c)
    omega
  have hguard : ¬(2 < (mergedAfter tok st c).length ∨
      (0 ≤ ldpAfter st c ∧ cwStartAfter st c ≤ ldpAfter st c ∧
        ldpAfter st c ≤ cwEndAfter st c)) := by
    rw [hldpA]
    push_neg
    refine ⟨by omega, ?_⟩
    intro h0
    omega
  by_cases hquick : st.isFirstSentence = true ∧
      st.cfg.minimumFirstFragmentLength < (bufAfter st c).length ∧
      st.cfg.quickYieldSingleSentenceFragment = true ∧
      (lastIsFragDelim st.cfg (bufAfter st c) = true ∨
        (pyIsSpace c = true ∧
          st.cfg.forceFirstFragmentAfterWords ≤ wcAfter st c))
  · right
    have htrig := hquick.2.2.2
    rcases htrig with hfrag | ⟨hsp, hforce⟩
    · rw [hnofrag] at hfrag
      simp at hfrag
    · have hce : c = ' ' := by
        by_contra hne
        rw [hcsp hne] at hsp
        simp at hsp
      have hcnt : (p ++ [c]).count ' ' =
          cfg2.forceFirstFragmentAfterWords := by
        rw [hwcA, hcfg] at hforce
        subst hce
        rw [count_append_space] at hforce ⊢
        omega
      refine ⟨?_, hce, hcnt⟩
      simp only [processChar]
      rw [if_neg hfic, if_pos hquick]
      rw [hcfg, hbufA]
  · left
    have hcnt2 : (p ++ [c]).count ' ' < cfg2.forceFirstFragmentAfterWords := by
      by_cases hce : c = ' '
      · subst hce
        rw [count_append_space]
        rcases Nat.lt_or_ge (p.count ' ' + 1)
          cfg2.forceFirstFragmentAfterWords with h | h
        · exact h
        · exfalso
          have heq : (p ++ [' ']).count ' ' =
              cfg2.forceFirstFragmentAfterWords := by
            rw [count_append_space]
            omega
          apply hquick
          refine ⟨hfirst, ?_, by rw [hcfg]; exact hsingle,
            Or.inr ⟨space_is_space, ?_⟩⟩
          · rw [hbufA, hcfg]
            exact hbufc rfl heq
          · rw [hwcA, hcfg]
            omega
      · rw [count_append_nonspace p hce]
        exact hcount
    simp only [processChar]
    rw [if_neg hfic, if_neg hquick]
    by_cases hshort : (bufAfter st c).length ≤
        st.cfg.minimumSentenceLength + st.cfg.contextSize
    · rw [if_pos hshort]
      exact ⟨rfl, hcfg, by rw [hbufA], by rw [hwcA], hfirst, hldp, hcnt2⟩
    · rw [if_neg hshort, if_neg hguard]
      exact ⟨rfl, hcfg, by rw [hbufA], by rw [hwcA], hfirst,
        by rw [hldpA], hcnt2⟩
/-- Only `' '` can satisfy the whitespace predicate on a stream whose
characters are each a plain space or non-whitespace, so `str.count(' ')`
agrees with the whitespace count. -/
theorem countP_space_eq_count :
    ∀ {l : List Char}, (∀ c ∈ l, pyIsSpace c = true → c = ' ') →
      l.countP pyIsSpace = l.count ' ' := by
  intro l
  induction l with
  | nil => intro _; rfl
  | cons c rest ih =>
    intro h
    have hrest := ih (fun d hd => h d (List.mem_cons_of_mem _ hd))
    rw [List.countP_cons, List.count_cons]
    by_cases hc : pyIsSpace c = true
    · have hce : c = ' ' := h c (List.mem_cons_self c rest) hc
      subst hce
      simp [hrest, hc]
    · have hcne : ¬(c = ' ') := by
        intro hce
        rw [hce] at hc
        exact hc rfl
      simp [hrest, hc, hcne]
/-- A string ending in a space has at most as many whitespace-delimited
words as spaces (when every whitespace character in it is `' '`). -/
theorem wordsCount_ends_space_le (q : List Char)
    (hall : ∀ c ∈ q ++ [' '], pyIsSpace c = true → c = ' ') :
    wordsCount (q ++ [' ']) ≤ (q ++ [' ']).count ' ' := by
  have h1 := (wordsCountAux_ends_space ' ' space_is_space q).1
  rw [countP_space_eq_count hall] at h1
  exact h1
/-- Every sentence assembled by the `flush` accumulation loop has at most
as many words as the pending buffer and the remaining sentences together
(sanitization off: yields only strip). -/
theorem flushLoop_words {cfg2 : SplitterConfig}
    (hl : cfg2.cleanupTextLinks = false)
    (he : cfg2.cleanupTextEmojis = false) :
    ∀ (l : List (List Char)) (sb : List Char) (e : Emission),
      e ∈ flushLoop cfg2 l sb →
      wordsCount e.text ≤ wordsCount sb + (l.map wordsCount).sum := by
  intro l
  induction l with
  | nil =>
    intro sb e he2
    rw [flushLoop] at he2
    split at he2
    · simp at he2
    · simp only [List.mem_singleton] at he2
      rw [he2, cleanSplitter_off hl he]
      simp [wordsCount_strip]
  | cons t rest ih =>
    intro sb e he2
    simp only [flushLoop] at he2
    split at he2
    · have hrec := ih (sb ++ t ++ [' ']) e he2
      have heq : wordsCount ((sb ++ t) ++ [' ']) = wordsCount (sb ++ t) := by
        rw [wordsCount, wordsCount]
        refine wordsCountAux_append_spaces ?_ (sb ++ t) false
        intro c hc
        simp only [List.mem_singleton] at hc
        subst hc
        exact space_is_space
      have hle := wordsCount_append_le sb t
      rw [heq] at hrec
      simp only [List.map_cons, List.sum_cons]
      omega
    · rcases List.mem_cons.1 he2 with hhd | htl
      · rw [hhd]
        simp only [cleanSplitter_off hl he]
        have := wordsCount_append_le sb t
        simp only [List.map_cons, List.sum_cons, wordsCount_strip]
        omega
      · have hrec := ih [] e htl
        simp only [List.map_cons, List.sum_cons] at hrec ⊢
        have h0 : wordsCount [] = 0 := rfl
        omega
/-- The head of a concatenation is the head of its nonempty first part. -/
theorem head?_append_of_some {α : Type} {a : α} {l r : List α}
    (h : l.head? = some a) : (l ++ r).head? = some a := by
  cases l with
  | nil => simp at h
  | cons x t =>
    simp only [List.head?_cons, Option.some.injEq] at h
    simp [h]
/-- Chunk-level quick-yield run: on delimiter-free input, a splitter in
the quick-yield invariant either emits nothing (and the invariant
advances across the chunk) or its first emission is the quick-yield of a
space-ended input portion whose space count is exactly the forcing
threshold. -/
theorem processChunk_qy (tok : List Char → List (List Char))
    (cfg2 : SplitterConfig)
    (hsingle : cfg2.quickYieldSingleSentenceFragment = true)
    (hfilter : cfg2.filterFirstNonAlnumCharacters = false)
    (hspf : ' ' ∉ cfg2.sentenceFragmentDelimiters)
    (hspd : ' ' ∉ cfg2.fullSentenceDelimiters)
    (htok2 : ∀ t, (tok t).length ≤ 2) :
    ∀ (chunk : List Char) (st : SplitterState) (p : List Char),
      QYInv cfg2 p st →
      (∀ c ∈ chunk, c = ' ' ∨ (pyIsSpace c = false ∧
        c ∉ cfg2.sentenceFragmentDelimiters ∧
        c ∉ cfg2.fullSentenceDelimiters)) →
      (∀ q : List Char, q ++ [' '] <+: p ++ chunk →
        (q ++ [' ']).count ' ' = cfg2.forceFirstFragmentAfterWords →
        cfg2.minimumFirstFragmentLength < (pyLStrip (q ++ [' '])).length) →
      ((processChunk tok st chunk).emissions = [] ∧
        QYInv cfg2 (p ++ chunk) (processChunk tok st chunk).state) ∨
      (∃ q : List Char, q ++ [' '] <+: p ++ chunk ∧
        (q ++ [' ']).count ' ' = cfg2.forceFirstFragmentAfterWords ∧
        (processChunk tok st chunk).emissions.head? =
          some ⟨.quickYield, cleanSplitter cfg2 (pyLStrip (q ++ [' ']))⟩) := by
  intro chunk
  induction chunk with
  | nil =>
    intro st p hInv _ _
    left
    have h1 : processChunk tok st [] =
        { state := st, emissions := [], analyzed := 0 } := rfl
    rw [h1, List.append_nil]
    exact ⟨rfl, hInv⟩
  | cons c cs ih =>
    intro st p hInv hchars hbufc
    have hc := hchars c (List.mem_cons_self c cs)
    have hbufc1 : c = ' ' →
        (p ++ [c]).count ' ' = cfg2.forceFirstFragmentAfterWords →
        cfg2.minimumFirstFragmentLength < (pyLStrip (p ++ [c])).length := by
      intro hce hcnt
      subst hce
      exact hbufc p ⟨cs, by simp⟩ hcnt
    have hstep := processChar_qy tok cfg2 st p c hsingle hfilter hspf hspd
      htok2 hInv hc hbufc1
    have hrec : processChunk tok st (c :: cs) =
        { state := (processChunk tok (processChar tok st c).state cs).state
          emissions := (processChar tok st c).emissions ++
            (processChunk tok (processChar tok st c).state cs).emissions
          analyzed := (processChar tok st c).analyzed +
            (processChunk tok (processChar tok st c).state cs).analyzed } := rfl
    rcases hstep with ⟨hemp, hInv2⟩ | ⟨hfire, hce, hcnt⟩
    · have hch2 : ∀ d ∈ cs, d = ' ' ∨ (pyIsSpace d = false ∧
          d ∉ cfg2.sentenceFragmentDelimiters ∧
          d ∉ cfg2.fullSentenceDelimiters) :=
        fun d hd => hchars d (List.mem_cons_of_mem _ hd)
      have hassoc : (p ++ [c]) ++ cs = p ++ c :: cs := by simp
      have hbufc2 : ∀ q : List Char, q ++ [' '] <+: (p ++ [c]) ++ cs →
          (q ++ [' ']).count ' ' = cfg2.forceFirstFragmentAfterWords →
          cfg2.minimumFirstFragmentLength <
            (pyLStrip (q ++ [' '])).length := by
        intro q hq hcnt2
        refine hbufc q ?_ hcnt2
        rw [← hassoc]
        exact hq
      rcases ih (processChar tok st c).state (p ++ [c]) hInv2 hch2 hbufc2 with
        ⟨hemp2, hInv3⟩ | ⟨q, hq, hcntq, hhead⟩
      · left
        rw [hrec]
        refine ⟨by simp [hemp, hemp2], ?_⟩
        rw [← hassoc]
        exact hInv3
      · right
        refine ⟨q, ?_, hcntq, ?_⟩
        · rw [← hassoc]
          exact hq
        · rw [hrec]
          simp only [hemp, List.nil_append]
          exact hhead
    · right
      subst hce
      refine ⟨p, ⟨cs, by simp⟩, hcnt, ?_⟩
      rw [hrec]
      simp only [hfire]
      rfl
/-- A one-chunk drained `stream` emits what processing the chunk emits
and ends in the same state. -/
theorem streamChunks_single (tok : List Char → List (List Char))
    (st : SplitterState) (f : List Char) :
    (streamChunks tok st [f]).emissions = (processChunk tok st f).emissions ∧
      (streamChunks tok st [f]).state = (processChunk tok st f).state := by
  constructor
  · show (processChunk tok st f).emissions ++ [] = _
    simp
  · rfl
/-- Whole-run quick-yield invariant: over any fragment sequence of
delimiter-free text with the forcing-boundary buffers long enough, the
drive loop either emits nothing (preserving the invariant over the
concatenated input) or its first emission quick-yields a space-ended
input portion with exactly the forcing number of spaces. -/
theorem runFrags_qy (tok : List Char → List (List Char))
    (cfg2 : SplitterConfig)
    (hsingle : cfg2.quickYieldSingleSentenceFragment = true)
    (hfilter : cfg2.filterFirstNonAlnumCharacters = false)
    (hspf : ' ' ∉ cfg2.sentenceFragmentDelimiters)
    (hspd : ' ' ∉ cfg2.fullSentenceDelimiters)
    (htok2 : ∀ t, (tok t).length ≤ 2) :
    ∀ (frags : List (List Char)) (st : SplitterState) (p : List Char),
      st.inputBuffer = [] →
      QYInv cfg2 p st →
      (∀ c ∈ frags.flatten, c = ' ' ∨ (pyIsSpace c = false ∧
        c ∉ cfg2.sentenceFragmentDelimiters ∧
        c ∉ cfg2.fullSentenceDelimiters)) →
      (∀ q : List Char, q ++ [' '] <+: p ++ frags.flatten →
        (q ++ [' ']).count ' ' = cfg2.forceFirstFragmentAfterWords →
        cfg2.minimumFirstFragmentLength < (pyLStrip (q ++ [' '])).length) →
      ((runFrags tok st frags).emissions = [] ∧
        QYInv cfg2 (p ++ frags.flatten) (runFrags tok st frags).state) ∨
      (∃ q : List Char, q ++ [' '] <+: p ++ frags.flatten ∧
        (q ++ [' ']).count ' ' = cfg2.forceFirstFragmentAfterWords ∧
        (runFrags tok st frags).emissions.head? =
          some ⟨.quickYield, cleanSplitter cfg2 (pyLStrip (q ++ [' ']))⟩) := by
  intro frags
  induction frags with
  | nil =>
    intro st p _ hInv _ _
    left
    have h1 : runFrags tok st [] =
        { state := st, emissions := [], analyzed := 0 } := rfl
    rw [h1, List.flatten_nil, List.append_nil]
    exact ⟨rfl, hInv⟩
  | cons f rest ih =>
    intro st p hib hInv hchars hbufc
    have hsr : streamRun tok (addChunk st f) =
        streamChunks tok { addChunk st f with inputBuffer := [] } [f] := by
      rw [streamRun]
      have h2 : (addChunk st f).inputBuffer = [f] := by
        simp [addChunk, hib]
      rw [h2]
    have hInv0 : QYInv cfg2 p { addChunk st f with inputBuffer := [] } := hInv
    have hchf : ∀ c ∈ f, c = ' ' ∨ (pyIsSpace c = false ∧
        c ∉ cfg2.sentenceFragmentDelimiters ∧
        c ∉ cfg2.fullSentenceDelimiters) := by
      intro c hcf
      exact hchars c (by rw [List.flatten_cons]; exact List.mem_append_left _ hcf)
    have hassoc : (p ++ f) ++ rest.flatten = p ++ (f :: rest).flatten := by
      simp
    have hbufcf : ∀ q : List Char, q ++ [' '] <+: p ++ f →
        (q ++ [' ']).count ' ' = cfg2.forceFirstFragmentAfterWords →
        cfg2.minimumFirstFragmentLength < (pyLStrip (q ++ [' '])).length := by
      intro q hq hcnt2
      refine hbufc q (hq.trans ?_) hcnt2
      exact ⟨rest.flatten, hassoc⟩
    have hchunk := processChunk_qy tok cfg2 hsingle hfilter hspf hspd htok2 f
      { addChunk st f with inputBuffer := [] } p hInv0 hchf hbufcf
    have hone := streamChunks_single tok
      { addChunk st f with inputBuffer := [] } f
    have hrec : runFrags tok st (f :: rest) =
        { state := (runFrags tok (streamRun tok (addChunk st f)).state
            rest).state
          emissions := (streamRun tok (addChunk st f)).emissions ++
            (runFrags tok (streamRun tok (addChunk st f)).state
              rest).emissions
          analyzed := (streamRun tok (addChunk st f)).analyzed +
            (runFrags tok (streamRun tok (addChunk st f)).state
              rest).analyzed } := rfl
    have hib2 := streamRun_inputBuffer tok (addChunk st f)
    rcases hchunk with ⟨hemp, hInv2⟩ | ⟨q, hq, hcntq, hhead⟩
    · have hInv2' : QYInv cfg2 (p ++ f)
          (streamRun tok (addChunk st f)).state := by
        rw [hsr, hone.2]
        exact hInv2
      have hch2 : ∀ c ∈ rest.flatten, c = ' ' ∨ (pyIsSpace c = false ∧
          c ∉ cfg2.sentenceFragmentDelimiters ∧
          c ∉ cfg2.fullSentenceDelimiters) := by
        intro c hcf
        exact hchars c
          (by rw [List.flatten_cons]; exact List.mem_append_right _ hcf)
      have hbufc2 : ∀ q : List Char, q ++ [' '] <+: (p ++ f) ++ rest.flatten →
          (q ++ [' ']).count ' ' = cfg2.forceFirstFragmentAfterWords →
          cfg2.minimumFirstFragmentLength <
            (pyLStrip (q ++ [' '])).length := by
        intro q hq hcnt2
        refine hbufc q ?_ hcnt2
        rw [← hassoc]
        exact hq
      rcases ih (streamRun tok (addChunk st f)).state (p ++ f) hib2 hInv2'
          hch2 hbufc2 with ⟨hemp2, hInv3⟩ | ⟨q, hq, hcntq, hhead⟩
      · left
        rw [hrec]
        have hemp1 : (streamRun tok (addChunk st f)).emissions = [] := by
          rw [hsr, hone.1]
          exact hemp
        refine ⟨by simp [hemp1, hemp2], ?_⟩
        rw [← hassoc]
        exact hInv3
      · right
        refine ⟨q, ?_, hcntq, ?_⟩
        · rw [← hassoc]
          exact hq
        · rw [hrec]
          have hemp1 : (streamRun tok (addChunk st f)).emissions = [] := by
            rw [hsr, hone.1]
            exact hemp
          simp only [hemp1, List.nil_append]
          exact hhead
    · right
      refine ⟨q, hq.trans ⟨rest.flatten, hassoc⟩, hcntq, ?_⟩
      rw [hrec]
      refine head?_append_of_some ?_
      rw [hsr, hone.1]
      exact hhead
/-- The one-sentence tokenizer returns at most two sentences. -/
theorem wholeTok_len2 : ∀ t, (wholeTok t).length ≤ 2 := by
  intro t
  rw [wholeTok]
  split
  · simp
  · simp
/-- The one-sentence tokenizer never increases the word count. -/
theorem wholeTok_words :
    ∀ t, ((wholeTok t).map wordsCount).sum ≤ wordsCount t := by
  intro t
  rw [wholeTok]
  split
  · simp
  · simp [wordsCount_strip]
/-- C3 (amended): with `quick_yield_single_sentence_fragment` enabled and
`force_first_fragment_after_words = W ≥ 1`, on input whose characters
are plain spaces or non-whitespace non-delimiters (so no soft delimiter
appears at all), with sanitization and the leading-character filter off
and a tokenizer that returns at most two sentences and never increases
the word count, the first emitted unit has at most `W`
whitespace-delimited words — provided that every space-ended input
portion reaching exactly `W` spaces already exceeds
`minimum_first_fragment_length` after left-stripping.  Without that
proviso the cap fails: the forcing test is gated on the buffer length,
so the word count can overshoot `W` (see the counterexample). -/
theorem quick_yield_cap (tok : List Char → List (List Char))
    (cfg : SplitterConfig) (frags : List (List Char)) (e : Emission)
    (hsingle : cfg.quickYieldSingleSentenceFragment = true)
    (hW : 1 ≤ cfg.forceFirstFragmentAfterWords)
    (hfilter : cfg.filterFirstNonAlnumCharacters = false)
    (hl : cfg.cleanupTextLinks = false)
    (he : cfg.cleanupTextEmojis = false)
    (hspf : ' ' ∉ cfg.sentenceFragmentDelimiters)
    (hspd : ' ' ∉ cfg.fullSentenceDelimiters)
    (htok2 : ∀ t, (tok t).length ≤ 2)
    (htokW : ∀ t, ((tok t).map wordsCount).sum ≤ wordsCount t)
    (hchars : ∀ c ∈ frags.flatten, c = ' ' ∨ (pyIsSpace c = false ∧
      c ∉ cfg.sentenceFragmentDelimiters ∧
      c ∉ cfg.fullSentenceDelimiters))
    (hbuf : ∀ i, i < frags.flatten.length →
      (frags.flatten.take (i + 1)).getLast? = some ' ' →
      (frags.flatten.take (i + 1)).count ' ' =
        cfg.forceFirstFragmentAfterWords →
      cfg.minimumFirstFragmentLength <
        (pyLStrip (frags.flatten.take (i + 1))).length)
    (hhead : (runSplitter tok cfg frags).head? = some e) :
    wordsCount e.text ≤ cfg.forceFirstFragmentAfterWords := by
  have hsingle2 :
      (applyQuickYieldCascade cfg).quickYieldSingleSentenceFragment =
        true := by
    simp [applyQuickYieldCascade, hsingle]
  have hfilter2 :
      (applyQuickYieldCascade cfg).filterFirstNonAlnumCharacters =
        false := hfilter
  have hl2 : (applyQuickYieldCascade cfg).cleanupTextLinks = false := hl
  have he2 : (applyQuickYieldCascade cfg).cleanupTextEmojis = false := he
  have hspf2 :
      ' ' ∉ (applyQuickYieldCascade cfg).sentenceFragmentDelimiters := hspf
  have hspd2 :
      ' ' ∉ (applyQuickYieldCascade cfg).fullSentenceDelimiters := hspd
  have hforce : (applyQuickYieldCascade cfg).forceFirstFragmentAfterWords =
      cfg.forceFirstFragmentAfterWords := rfl
  have hInv0 : QYInv (applyQuickYieldCascade cfg) [] (initState cfg) :=
    ⟨rfl, rfl, rfl, rfl, rfl, hW⟩
  have hallsp : ∀ c ∈ frags.flatten, pyIsSpace c = true → c = ' ' := by
    intro c hcm hcs
    rcases hchars c hcm with hce | ⟨h1, _⟩
    · exact hce
    · rw [h1] at hcs
      exact absurd hcs (by simp)
  have hbufc : ∀ q : List Char, q ++ [' '] <+: [] ++ frags.flatten →
      (q ++ [' ']).count ' ' =
        (applyQuickYieldCascade cfg).forceFirstFragmentAfterWords →
      (applyQuickYieldCascade cfg).minimumFirstFragmentLength <
        (pyLStrip (q ++ [' '])).length := by
    intro q hq hcnt
    rw [List.nil_append] at hq
    have hlen : q.length + 1 ≤ frags.flatten.length := by
      have := hq.length_le
      simpa using this
    have htake : q ++ [' '] = frags.flatten.take (q.length + 1) := by
      have := List.prefix_iff_eq_take.1 hq
      simpa using this
    have hres := hbuf q.length (by omega)
      (by rw [← htake]; exact List.getLast?_concat q)
      (by rw [← htake]; exact hcnt)
    rw [← htake] at hres
    exact hres
  have hrun := runFrags_qy tok (applyQuickYieldCascade cfg) hsingle2 hfilter2
    hspf2 hspd2 htok2 frags (initState cfg) [] rfl hInv0 hchars hbufc
  rcases hrun with ⟨hemp, hInvEnd⟩ | ⟨q, hq, hcnt, hhead2⟩
  · rw [List.nil_append] at hInvEnd
    obtain ⟨hcfgE, hbufE, _, _, _, hcntE⟩ := hInvEnd
    simp only [runSplitter, runSplitterResult] at hhead
    rw [hemp, List.nil_append] at hhead
    have hmem : e ∈ flushEmissions tok
        (runFrags tok (initState cfg) frags).state :=
      List.mem_of_mem_head? (by rw [hhead]; rfl)
    rw [flushEmissions] at hmem
    split at hmem
    · simp at hmem
    · rw [hcfgE, hbufE] at hmem
      have hfw := flushLoop_words hl2 he2
        (tok (pyLStrip frags.flatten)) [] e hmem
      have hsum := htokW (pyLStrip frags.flatten)
      have hwl : wordsCount (pyLStrip frags.flatten) =
          wordsCount frags.flatten := wordsCount_lstrip frags.flatten
      have hub := (wordsCountAux_le_countP frags.flatten).1
      rw [countP_space_eq_count hallsp] at hub
      have h0 : wordsCount ([] : List Char) = 0 := rfl
      have hwc : wordsCount frags.flatten =
          wordsCountAux false frags.flatten := rfl
      rw [hforce] at hcntE
      omega
  · rw [List.nil_append] at hq
    simp only [runSplitter, runSplitterResult] at hhead
    have hha : ((runFrags tok (initState cfg) frags).emissions ++
        flushEmissions tok (runFrags tok (initState cfg) frags).state).head? =
        some ⟨EmissionKind.quickYield, cleanSplitter (applyQuickYieldCascade
          cfg) (pyLStrip (q ++ [' ']))⟩ := head?_append_of_some hhead2
    rw [hha] at hhead
    have hee := Option.some.inj hhead
    rw [← hee]
    show wordsCount (cleanSplitter (applyQuickYieldCascade cfg)
      (pyLStrip (q ++ [' ']))) ≤ cfg.forceFirstFragmentAfterWords
    rw [cleanSplitter_off hl2 he2, wordsCount_strip, wordsCount_lstrip]
    have hall2 : ∀ c ∈ q ++ [' '], pyIsSpace c = true → c = ' ' := by
      intro c hcm hcs
      rcases List.mem_append.1 hcm with hcq | hcl
      · exact hallsp c (hq.subset (List.mem_append_left _ hcq)) hcs
      · simpa using hcl
    have hle := wordsCount_ends_space_le q hall2
    rw [hcnt, hforce] at hle
    exact hle
/-- C3 counterexample: with `quick_yield_single_sentence_fragment` on and
`force_first_fragment_after_words = 3`, the delimiter-free input
`"a b c d e f "` (no sentence-fragment delimiter anywhere, hence none
before the third word boundary) yields a first unit of six
whitespace-delimited words, exceeding the cap of three: the forcing test
also requires the buffer to exceed `minimum_first_fragment_length` (ten
by default), so the word count keeps growing past the threshold until
the buffer is long enough. -/
theorem quick_yield_cap_violated :
    cfgC3ce.forceFirstFragmentAfterWords = 3 ∧
    (∀ c ∈ "a b c d e f ".data,
      c ∉ cfgC3ce.sentenceFragmentDelimiters) ∧
    ((runSplitter splitTok cfgC3ce ["a b c d e f ".data]).head?.map
      (fun e => wordsCount e.text)) = some 6 ∧
    3 < 6 := by
  decide
/-- Witness: the amended cap theorem fires on a concrete run whose first
emission is the three-word quick-yield fragment. -/
theorem quick_yield_cap_witness :
    wordsCount (Emission.mk EmissionKind.quickYield "abc d e".data).text ≤
      cfgC3w.forceFirstFragmentAfterWords :=
  quick_yield_cap wholeTok cfgC3w ["abc d e f".data]
    ⟨EmissionKind.quickYield, "abc d e".data⟩
    (by decide) (by decide) (by decide) (by decide) (by decide)
    (by decide) (by decide) wholeTok_len2 wholeTok_words
    (by decide) (by decide) (by decide)
end Stream2Sentence
